import Mathlib

/-! The naive single-queue thread pool `sparent_naive`.

A shallow embedding of `benchmark_candidates/sean_parent/sean_parent_naive.hpp`.

* `notification_queue` is the pair of the deque `_q` and the flag `_done`.  The mutex
  `_mutex` carries no data: every member function touches `_q` and `_done` only while it
  holds the lock, so each critical section is one atomic function on that pair.  The
  condition variable `_ready` shows through `pop_result.wait`, the outcome of a critical
  section of `pop` that ends in `_ready.wait(lock)`.
* A `std::function<void()>` is `none` when empty and otherwise a callable acting on the
  part of the program state the tasks can reach; a call either returns or throws.
* `task_system::run` is given twice: as the loop one thread executes while no other thread
  touches the queue (`run`, with fuel for `while(true)`), and as the small steps of one
  thread among several (`process.step`), where a critical section of `pop` and a call
  `f()` are each one step.
-/

namespace sparent_naive

namespace internal

/-! ## notification_queue -/

/-- The data members of `notification_queue` that hold state: `_q` (front of the deque is
the head of the list) and `_done`, with their in-class initial values. -/
structure notification_queue (α : Type) where
  _q : List α := []
  _done : Bool := false
  deriving DecidableEq

/-- `notification_queue::done` (lines 41-49): `_done = true` under the lock. -/
def notification_queue.done {α : Type} (s : notification_queue α) : notification_queue α :=
  { s with _done := true }

/-- `notification_queue::push` (lines 66-75): `_q.emplace_back(f)` under the lock.  There
is no other statement that touches the state and no failure path. -/
def notification_queue.push {α : Type} (s : notification_queue α) (f : α) :
    notification_queue α :=
  { s with _q := s._q ++ [f] }

/-- How a critical section of `pop` ends: in `_ready.wait(lock)` (the mutex is released and
the caller sleeps, nothing has been changed), or in a `return` with the returned flag, the
content of the caller's slot `x` and the queue state left behind. -/
inductive pop_result (α : Type) where
  | wait : pop_result α
  | ret (r : Bool) (x : α) (s : notification_queue α) : pop_result α

/-- `notification_queue::pop` (lines 51-64) from the evaluation of the `while` condition to
the next release of the mutex:
`while(_q.empty() && !_done) _ready.wait(lock);`
`if(_q.empty()) return false;`
`x = move(_q.front()); _q.pop_front(); return true;`.
`x` is what the caller's slot holds on entry. -/
def notification_queue.pop {α : Type} (s : notification_queue α) (x : α) : pop_result α :=
  if s._q.isEmpty && !s._done then .wait
  else if s._q.isEmpty then .ret false x s
  else .ret true (s._q.headD x) { s with _q := s._q.tail }

/-- Where a thread stands inside one call `pop(x)`: holding the mutex in front of the
`while` condition (line 55), asleep in `_ready.wait(lock)` (line 57), or returned. -/
inductive pop_call (α : Type) where
  | at_test (x : α) : pop_call α
  | in_wait (x : α) : pop_call α
  | returned (r : Bool) (x : α) : pop_call α

/-- One step of a thread inside `pop(x)` on the queue state `s` it finds.  From the test
it runs the critical section.  From the wait it is woken (by `notify_one`, `notify_all` or
spuriously, the code cannot tell which), `wait` re-acquires the mutex and control is back
at the `while` condition. -/
def pop_call.step {α : Type} (s : notification_queue α) :
    pop_call α → pop_call α × notification_queue α
  | .at_test x =>
    match s.pop x with
    | .wait => (.in_wait x, s)
    | .ret r y s1 => (.returned r y, s1)
  | .in_wait x => (.at_test x, s)
  | .returned r x => (.returned r x, s)

/-- The atomic steps threads take on one queue: a `push` or a `done`, or one critical
section of a `pop(x)`; `thread` names the thread taking the step. -/
inductive queue_op (α : Type) where
  | push (thread : Nat) (f : α) : queue_op α
  | pop (thread : Nat) (x : α) : queue_op α
  | done (thread : Nat) : queue_op α

/-- The effect of one atomic step on the queue, with the task a `pop` hands out when it
returns true. -/
def notification_queue.apply_op {α : Type} (s : notification_queue α) :
    queue_op α → notification_queue α × Option α
  | .push _ f => (s.push f, none)
  | .pop _ x =>
    match s.pop x with
    | .wait => (s, none)
    | .ret true y s1 => (s1, some y)
    | .ret false _ s1 => (s1, none)
  | .done _ => (s.done, none)

/-- An interleaving: the steps in the order in which they got the mutex.  The result is
the final queue state and the tasks handed out by the pops that returned true, in order. -/
def notification_queue.run_ops {α : Type} (s : notification_queue α) :
    List (queue_op α) → notification_queue α × List α
  | [] => (s, [])
  | op :: ops =>
    let r := s.apply_op op
    let rest := r.1.run_ops ops
    (rest.1, r.2.toList ++ rest.2)

/-- What ends a call `f()` other than a return: the C++ exceptions the model needs by
name, any other exception `e` a callable throws, and the use of an object that is not
alive (undefined behaviour in C++, kept apart from every defined outcome). -/
inductive failure (ε : Type) where
  | bad_function_call : failure ε
  | promise_already_satisfied : failure ε
  | thrown (e : ε) : failure ε
  | undefined_behaviour : failure ε
  deriving DecidableEq

/-- A `std::function<void()>`: empty (`none`), or a target that acts on the state `σ` the
tasks can reach and returns or fails.  `σ` does not contain the queue: a target of this
type does not push. -/
abbrev std_function (σ ε : Type) := Option (σ → Except (failure ε) σ)

/-- The call `f()`: `std::bad_function_call` when `f` is empty, else the target runs. -/
def std_function.call {σ ε : Type} (f : std_function σ ε) (env : σ) :
    Except (failure ε) σ :=
  match f with
  | none => .error .bad_function_call
  | some g => g env

/-- The calls `f()` of a list of tasks one after the other, stopping at the first
failure. -/
def call_all {σ ε : Type} : List (std_function σ ε) → σ → Except (failure ε) σ
  | [], env => .ok env
  | f :: fs, env =>
    match std_function.call f env with
    | .ok env1 => call_all fs env1
    | .error e => .error e

/-! ## task_system -/

/-- How the loop of `run` ends for a thread that is alone with the queue. -/
inductive run_end (ε : Type) where
  | returned : run_end ε
  | blocked : run_end ε
  | threw (e : failure ε) : run_end ε
  | out_of_fuel : run_end ε
  deriving DecidableEq

/-- What `run` leaves: how it ended (`returned`: `pop` gave false and the loop broke;
`blocked`: `pop` sleeps in `_ready.wait` and no other thread exists to wake it; `threw e`:
`e` left `f()` and, `run` having no handler, left `run`), the queue, the state of the
tasks, and the tasks on which `f()` was called, in the order of the calls. -/
structure run_result (σ ε : Type) where
  how : run_end ε
  q : notification_queue (std_function σ ε)
  env : σ
  called : List (std_function σ ε)

/-- `task_system::run` (lines 84-95) on the queue `_q`, executed by one thread while no
other thread touches `_q`; `fuel` bounds the iterations of `while(true)`.
`std::function<void()> f;` is empty, so `!f` holds and `_q.pop(f)` is evaluated in every
iteration; `break` on false, else `f()`. -/
def run {σ ε : Type} (fuel : Nat) (q : notification_queue (std_function σ ε)) (env : σ) :
    run_result σ ε :=
  match fuel with
  | 0 => ⟨.out_of_fuel, q, env, []⟩
  | fuel + 1 =>
    let f : std_function σ ε := none
    if f.isNone then
      match q.pop f with
      | .wait => ⟨.blocked, q, env, []⟩
      | .ret false _ q1 => ⟨.returned, q1, env, []⟩
      | .ret true g q1 =>
        match std_function.call g env with
        | .error e => ⟨.threw e, q1, env, [g]⟩
        | .ok env1 =>
          let r := run fuel q1 env1
          { r with called := g :: r.called }
    else
      match std_function.call f env with
      | .error e => ⟨.threw e, q, env, [f]⟩
      | .ok env1 =>
        let r := run fuel q env1
        { r with called := f :: r.called }

/-- Where the `run(n)` of one `std::thread` of `_threads` stands: in `_q.pop(f)` in front
of the `while` condition, asleep in the `_ready.wait(lock)` of that `pop`, between a `pop`
that returned true and the call `f()`, or returned from `run` (after `break`), which is
when `join` on the thread returns. -/
inductive thread (σ ε : Type) where
  | popping : thread σ ε
  | waiting : thread σ ε
  | calling (f : std_function σ ε) : thread σ ε
  | returned : thread σ ε

/-- The data members of `task_system` (lines 80-82). -/
structure task_system (σ ε : Type) where
  _count : Nat
  _threads : List (thread σ ε)
  _q : notification_queue (std_function σ ε)

/-- The constructor (lines 98-105): `_count` is `std::thread::hardware_concurrency()`,
the queue is empty and not done, and `_count` threads are started, each entering
`run(n)`. -/
def task_system.create {σ ε : Type} (hardware_concurrency : Nat) : task_system σ ε :=
  { _count := hardware_concurrency
    _threads := List.replicate hardware_concurrency .popping
    _q := {} }

/-- `task_system::push` (lines 114-118): `_q.push(std::move(f))`. -/
def task_system.push {σ ε : Type} (ts : task_system σ ε) (f : std_function σ ε) :
    task_system σ ε :=
  { ts with _q := ts._q.push f }

/-- The first statement of `~task_system` (line 109): `_q.done()`. -/
def task_system.signal_done {σ ε : Type} (ts : task_system σ ε) : task_system σ ε :=
  { ts with _q := ts._q.done }

/-- The loop of `~task_system` (lines 110-111) is through, every `join` has returned,
when every thread has returned from `run`. -/
def task_system.joined {σ ε : Type} (ts : task_system σ ε) : Bool :=
  ts._threads.all fun t =>
    match t with
    | .returned => true
    | _ => false

/-- The running program as far as the pool is concerned: the pool, the state the tasks
act on, and whether an exception has left the `run` of a thread (`std::terminate`: the
program is over). -/
structure process (σ ε : Type) where
  pool : task_system σ ε
  env : σ
  terminated : Option (failure ε) := none

/-- One step of thread `i` of the pool, with the task it has called, if the step is a
call.  A critical section of `pop` and a call `f()` are taken as atomic. -/
def process.step {σ ε : Type} (p : process σ ε) (i : Nat) :
    process σ ε × Option (std_function σ ε) :=
  if p.terminated.isSome then (p, none)
  else
    match p.pool._threads[i]? with
    | none => (p, none)
    | some .popping =>
      match p.pool._q.pop none with
      | .wait =>
        ({ p with pool := { p.pool with _threads := p.pool._threads.set i .waiting } }, none)
      | .ret false _ q1 =>
        ({ p with pool := { p.pool with _threads := p.pool._threads.set i .returned,
                                        _q := q1 } }, none)
      | .ret true f q1 =>
        ({ p with pool := { p.pool with _threads := p.pool._threads.set i (.calling f),
                                        _q := q1 } }, none)
    | some .waiting =>
      ({ p with pool := { p.pool with _threads := p.pool._threads.set i .popping } }, none)
    | some (.calling f) =>
      match std_function.call f p.env with
      | .ok env1 =>
        ({ p with pool := { p.pool with _threads := p.pool._threads.set i .popping },
                  env := env1 }, some f)
      | .error e => ({ p with terminated := some e }, some f)
    | some .returned => (p, none)

/-- A schedule: the threads in the order in which they take their steps.  The result is
the final state and the tasks called, in the order of the calls. -/
def process.steps {σ ε : Type} (p : process σ ε) :
    List Nat → process σ ε × List (std_function σ ε)
  | [] => (p, [])
  | i :: is =>
    let r := p.step i
    let rest := r.1.steps is
    (rest.1, r.2.toList ++ rest.2)

/-- What happens to a pool between its construction and its destruction: some thread of
the program calls `push(f)` on it, or thread `i` of the pool takes a step. -/
inductive event (σ ε : Type) where
  | push (f : std_function σ ε) : event σ ε
  | thread (i : Nat) : event σ ε

/-- The effect of one event, with the task called, if the event is a call. -/
def process.handle {σ ε : Type} (p : process σ ε) :
    event σ ε → process σ ε × Option (std_function σ ε)
  | .push f => ({ p with pool := p.pool.push f }, none)
  | .thread i => p.step i

/-- A sequence of events in the order in which they happen.  The result is the final
state and the tasks called, in the order of the calls. -/
def process.events {σ ε : Type} (p : process σ ε) :
    List (event σ ε) → process σ ε × List (std_function σ ε)
  | [] => (p, [])
  | e :: es =>
    let r := p.handle e
    let rest := r.1.events es
    (rest.1, r.2.toList ++ rest.2)

/-- The tasks pushed by a sequence of events, in order. -/
def pushed_tasks {σ ε : Type} : List (event σ ε) → List (std_function σ ε)
  | [] => []
  | .push f :: es => f :: pushed_tasks es
  | .thread _ :: es => pushed_tasks es

/-- The life of a pool: it is constructed with `hardware_concurrency` threads in a program
whose tasks act on `env`; the events `evs` happen; the destructor signals done; the
threads take their steps along `sched`.  The result is the final state and the tasks
called over the whole life, in the order of the calls. -/
def lifetime {σ ε : Type} (hardware_concurrency : Nat) (env : σ) (evs : List (event σ ε))
    (sched : List Nat) : process σ ε × List (std_function σ ε) :=
  let r := ({ pool := task_system.create hardware_concurrency, env := env } :
    process σ ε).events evs
  let r2 := ({ r.1 with pool := r.1.pool.signal_done } : process σ ε).steps sched
  (r2.1, r.2 ++ r2.2)

/-- The tasks the threads hold between `pop` and `f()`. -/
def held {σ ε : Type} : List (thread σ ε) → List (std_function σ ε)
  | [] => []
  | .calling f :: ts => f :: held ts
  | _ :: ts => held ts

/-- A task whose call returns, on whatever state it is made. -/
def always_returns {σ ε : Type} (t : std_function σ ε) : Prop :=
  ∀ env, ∃ env1, std_function.call t env = .ok env1

/-- The steps a thread has left before it needs the queue again or is done, as a bound:
used to show that a shutdown can always complete. -/
def thread.weight {σ ε : Type} : thread σ ε → Nat
  | .popping => 1
  | .waiting => 2
  | .calling _ => 2
  | .returned => 0

/-- A bound on the steps the threads can still take once the queue is done and no task
is pushed any more. -/
def process.remaining {σ ε : Type} (p : process σ ε) : Nat :=
  3 * p.pool._q._q.length + (p.pool._threads.map thread.weight).sum

/-- Modelled from the spec: `push_queue` is declared on line 122 and defined outside the
given source; per the spec it enqueues the task on the one process-wide pool. -/
def push_queue {σ ε : Type} (f : std_function σ ε) (p : process σ ε) : process σ ε :=
  { p with pool := p.pool.push f }

end internal

/-! ## async -/

/-- The shared state of a `std::packaged_task` and its `std::future`: not ready, or ready
with a value, with the exception the stored call threw, or with the `broken_promise` a
packaged task leaves when it is destroyed before it was called. -/
inductive shared_state (ρ ε : Type) where
  | pending : shared_state ρ ε
  | value (v : ρ) : shared_state ρ ε
  | exception (e : ε) : shared_state ρ ε
  | broken_promise : shared_state ρ ε
  deriving DecidableEq

/-- An object made by `new packaged_type(std::bind(f, args...))`: the bound call `fn`
(it acts on the user state `υ` and returns a `result_type` or throws), the shared state,
and whether the object is alive (`delete ptr` ends that; the shared state stays with the
future). -/
structure packaged_task (ρ ε υ : Type) where
  fn : υ → Except ε ρ × υ
  state : shared_state ρ ε
  alive : Bool

/-- The state the tasks act on: the user state and the heap of packaged tasks, a pointer
being an index into the heap. -/
structure store (ρ ε υ : Type) where
  user : υ
  heap : List (packaged_task ρ ε υ)

/-- The shared state once the stored call has ended with `r`. -/
def state_of {ρ ε : Type} : Except ε ρ → shared_state ρ ε
  | .ok v => .value v
  | .error e => .exception e

/-- The call `(*ptr)()` of line 138, `std::packaged_task::operator()`: the stored call
runs once and its value or its exception goes into the shared state; nothing is thrown
on.  On a state that is already set it throws `std::future_error`. -/
def packaged_task_call {ρ ε υ : Type} (ptr : Nat) (st : store ρ ε υ) :
    Except (internal.failure ε) (store ρ ε υ) :=
  match st.heap[ptr]? with
  | none => .error .undefined_behaviour
  | some pt =>
    if !pt.alive then .error .undefined_behaviour
    else
      match pt.state with
      | .pending =>
        let r := pt.fn st.user
        .ok { user := r.2, heap := st.heap.set ptr { pt with state := state_of r.1 } }
      | _ => .error .promise_already_satisfied

/-- The statement `delete ptr` of line 139: the object is destroyed; its destructor stores
`broken_promise` in a shared state that is not ready and leaves a ready one alone. -/
def delete_ptr {ρ ε υ : Type} (ptr : Nat) (st : store ρ ε υ) :
    Except (internal.failure ε) (store ρ ε υ) :=
  match st.heap[ptr]? with
  | none => .error .undefined_behaviour
  | some pt =>
    if !pt.alive then .error .undefined_behaviour
    else
      let left : shared_state ρ ε :=
        match pt.state with
        | .pending => .broken_promise
        | ready => ready
      .ok { st with heap := st.heap.set ptr { pt with state := left, alive := false } }

/-- The lambda of lines 136-140, `[ptr]{ (*ptr)(); delete ptr; }`, as the target of
a `std::function<void()>`. -/
def async_task {ρ ε υ : Type} (ptr : Nat) : internal.std_function (store ρ ε υ) ε :=
  some fun st =>
    match packaged_task_call ptr st with
    | .error e => .error e
    | .ok st1 => delete_ptr ptr st1

/-- The value category of an expression: it decides which overload of a callable a call
selects. -/
inductive value_category where
  | lvalue : value_category
  | rvalue : value_category
  deriving DecidableEq

/-- One argument of a call as the callable is handed it: a value of an ordinary type,
passed as an lvalue or as an rvalue; a `std::reference_wrapper` around a value; or a bind
expression (an object made by `std::bind`), here one whose call reads the user state and
returns a value without changing the state or throwing, so that the order C++ leaves open
among several of them does not show.  A placeholder is no argument here: with it the
stored call, which is made without arguments, does not compile. -/
inductive argument (α υ : Type) where
  | plain (c : value_category) (a : α) : argument α υ
  | reference_wrapper (a : α) : argument α υ
  | bind_expression (g : υ → α) : argument α υ

/-- A callable: what the call does depends on the value category of the callable itself
(the first argument here), on the arguments as handed over, and on the user state; it
returns a `result_type` or throws, and leaves a user state.  The call `f(args...)` by a
caller who has `f` in the value category `c` is `f c args`. -/
abbrev callable (α ρ ε υ : Type) :=
  value_category → List (argument α υ) → υ → Except ε ρ × υ

/-- What a call of the object `std::bind(f, args...)` passes to `f` for a stored argument:
the stored copy as an lvalue, the object a reference wrapper refers to as an lvalue, and,
for a bind expression, the value its call returns, an rvalue. -/
def bound_argument {α υ : Type} (u : υ) : argument α υ → argument α υ
  | .plain _ a => .plain .lvalue a
  | .reference_wrapper a => .plain .lvalue a
  | .bind_expression g => .plain .rvalue (g u)

/-- A call, without arguments, of the object `std::bind(f, args...)`: the stored copy of
`f` is called as an lvalue on what `bound_argument` passes for the stored arguments. -/
def std_bind {α ρ ε υ : Type} (f : callable α ρ ε υ) (args : List (argument α υ)) :
    υ → Except ε ρ × υ :=
  fun u => f .lvalue (args.map (bound_argument u)) u

/-- `async` (lines 125-142).  The object `std::bind(f, args...)` of lines 132-133 is the
stored call; `ptr` is the new packaged task, at the end of the heap; `result`, the future
of `ptr->get_future()`, refers to the shared state of that object and is returned next to
the new program state. -/
def async {α ρ ε υ : Type} (f : callable α ρ ε υ) (args : List (argument α υ))
    (p : internal.process (store ρ ε υ) ε) : Nat × internal.process (store ρ ε υ) ε :=
  let ptr := p.env.heap.length
  let p1 : internal.process (store ρ ε υ) ε :=
    { p with env := { p.env with
        heap := p.env.heap ++ [{ fn := std_bind f args, state := .pending, alive := true }] } }
  let result := ptr
  (result, internal.push_queue (async_task ptr) p1)

/-- How `get()` on a future ends: it blocks while the shared state is pending, returns
the value, rethrows the stored exception, or throws the `std::future_error` of a broken
promise; `invalid` is a future without a shared state. -/
inductive get_result (ρ ε : Type) where
  | blocks : get_result ρ ε
  | returns (v : ρ) : get_result ρ ε
  | rethrows (e : ε) : get_result ρ ε
  | broken_promise : get_result ρ ε
  | invalid : get_result ρ ε
  deriving DecidableEq

/-- The blocking retrieval `get()` on the future `h` in the store `st`. -/
def future_get {ρ ε υ : Type} (st : store ρ ε υ) (h : Nat) : get_result ρ ε :=
  match st.heap[h]? with
  | none => .invalid
  | some pt =>
    match pt.state with
    | .pending => .blocks
    | .value v => .returns v
    | .exception e => .rethrows e
    | .broken_promise => .broken_promise

/-- What `get()` gives on a future whose stored call has ended with `r`. -/
def get_of {ρ ε : Type} : Except ε ρ → get_result ρ ε
  | .ok v => .returns v
  | .error e => .rethrows e

/-- The object `async(f, args...)` allocates, as allocated. -/
def new_task {α ρ ε υ : Type} (c : callable α ρ ε υ × List (argument α υ)) :
    packaged_task ρ ε υ :=
  { fn := std_bind c.1 c.2, state := .pending, alive := true }

/-- The object `async(f, args...)` allocated, after the call of its task: the stored call
has ended with `r` and the object is deleted. -/
def run_task {α ρ ε υ : Type} (c : callable α ρ ε υ × List (argument α υ))
    (r : Except ε ρ) : packaged_task ρ ε υ :=
  { fn := std_bind c.1 c.2, state := state_of r, alive := false }

/-- A list of calls `async(f, args...)` one after the other: the futures in the order of
the calls, and the program state left. -/
def async_all {α ρ ε υ : Type} :
    List (callable α ρ ε υ × List (argument α υ)) → internal.process (store ρ ε υ) ε →
      List Nat × internal.process (store ρ ε υ) ε
  | [], p => ([], p)
  | c :: cs, p =>
    let r := async c.1 c.2 p
    let rest := async_all cs r.2
    (r.1 :: rest.1, rest.2)

/-- The stored calls of a list of calls `async(f, args...)`, made one after the other on
the user state: how each call ended, and the user state left. -/
def outcomes {α ρ ε υ : Type} :
    List (callable α ρ ε υ × List (argument α υ)) → υ → List (Except ε ρ) × υ
  | [], u => ([], u)
  | c :: cs, u =>
    let r := std_bind c.1 c.2 u
    let rest := outcomes cs r.2
    (r.1 :: rest.1, rest.2)

/-- The scenario of a pool serving `async`: on a new pool (empty queue, not done) and the
store `st`, the calls `async(f, args...)` of `cs` are made in order, the queue is
signalled done, and one worker thread runs `run`.  The result is the futures and what
`run` leaves. -/
def submit_and_drain {α ρ ε υ : Type} (cs : List (callable α ρ ε υ × List (argument α υ)))
    (st : store ρ ε υ) (hardware_concurrency fuel : Nat) :
    List Nat × internal.run_result (store ρ ε υ) ε :=
  let r := async_all cs
    { pool := internal.task_system.create hardware_concurrency, env := st }
  (r.1, internal.run fuel r.2.pool._q.done r.2.env)

/-- What happens in a program that uses `async`, between the construction of the pool and
its destruction: a call `async(f, args...)`, or a step of thread `i` of the pool. -/
inductive request (α ρ ε υ : Type) where
  | async (f : callable α ρ ε υ) (args : List (argument α υ)) : request α ρ ε υ
  | thread (i : Nat) : request α ρ ε υ

/-- The effect of one request, with the future returned, if the request is a call of
`async`. -/
def serve {α ρ ε υ : Type} (p : internal.process (store ρ ε υ) ε) :
    request α ρ ε υ → internal.process (store ρ ε υ) ε × Option Nat
  | .async f args => ((async f args p).2, some (async f args p).1)
  | .thread i => ((p.step i).1, none)

/-- A sequence of requests in the order in which they happen.  The result is the final
state and the futures returned, in the order of the calls of `async`. -/
def serve_all {α ρ ε υ : Type} (p : internal.process (store ρ ε υ) ε) :
    List (request α ρ ε υ) → internal.process (store ρ ε υ) ε × List Nat
  | [] => (p, [])
  | r :: rs =>
    let s := serve p r
    let rest := serve_all s.1 rs
    (rest.1, s.2.toList ++ rest.2)

/-- The stored calls of the calls of `async` in a sequence of requests, in order. -/
def stored_calls {α ρ ε υ : Type} :
    List (request α ρ ε υ) → List (υ → Except ε ρ × υ)
  | [] => []
  | .async f args :: rs => std_bind f args :: stored_calls rs
  | .thread _ :: rs => stored_calls rs

/-- The life of a pool in a program that uses `async`: the pool is constructed with
`hardware_concurrency` threads on the store `st`; the requests `reqs` happen; the
destructor signals done; the threads take their steps along `sched`.  The result is the
final state and the futures returned. -/
def async_lifetime {α ρ ε υ : Type} (hardware_concurrency : Nat) (st : store ρ ε υ)
    (reqs : List (request α ρ ε υ)) (sched : List Nat) :
    internal.process (store ρ ε υ) ε × List Nat :=
  let r := serve_all
    ({ pool := internal.task_system.create hardware_concurrency, env := st } :
      internal.process (store ρ ε υ) ε) reqs
  ((({ r.1 with pool := r.1.pool.signal_done } :
    internal.process (store ρ ε υ) ε).steps sched).1, r.2)

/-- The bookkeeping of a program whose tasks are all made by `async`: `fns` are the stored
calls so far, their objects are at the heap indices from `n0` on, and `pend` are the
indices of the objects whose task is still queued or held.  The program has not
terminated; the tasks queued or held are the lambdas of `pend`, each once; their objects
are as allocated; and every object is as allocated with its task outstanding, or its
stored call has run, on some user state, and left its outcome in the shared state. -/
def tasks_match {ρ ε υ : Type} (fns : List (υ → Except ε ρ × υ)) (n0 : Nat)
    (pend : List Nat) (p : internal.process (store ρ ε υ) ε) : Prop :=
  p.terminated = none ∧
  (internal.held p.pool._threads ++ p.pool._q._q).Perm (pend.map async_task) ∧
  pend.Nodup ∧
  p.env.heap.length = n0 + fns.length ∧
  (∀ k ∈ pend, ∃ fn, p.env.heap[k]? = some ⟨fn, .pending, true⟩) ∧
  ∀ j fn, fns[j]? = some fn →
    (n0 + j ∈ pend ∧ p.env.heap[n0 + j]? = some ⟨fn, .pending, true⟩) ∨
    ∃ u, p.env.heap[n0 + j]? = some ⟨fn, state_of (fn u).1, false⟩

/-! ## Concrete inputs -/

namespace internal

/-- A task that appends `n` to a log. -/
def log_task (n : Nat) : std_function (List Nat) Nat :=
  some fun env => .ok (env ++ [n])

/-- A task that throws `e`. -/
def throwing_task (e : Nat) : std_function (List Nat) Nat :=
  some fun _ => .error (.thrown e)

/-- The events before a destruction: a task is pushed, thread 0 wakes up and pops it, two
more tasks are pushed.  At the end one task is held by thread 0 and two are queued. -/
def c7_events : List (event (List Nat) Nat) :=
  [.thread 0, .push (log_task 1), .thread 0, .thread 0, .push (log_task 2),
   .push (log_task 3)]

end internal

/-- The value of the first argument of a call, 0 when there is none or it is a bind
expression. -/
def first_value : List (argument Nat (List Nat)) → Nat
  | .plain _ a :: _ => a
  | .reference_wrapper a :: _ => a
  | _ => 0

/-- A callable that records its first argument in the user state and returns ten times
it. -/
def times_ten : callable Nat Nat Nat (List Nat) :=
  fun _ args u => (.ok (10 * first_value args), u ++ [first_value args])

/-- A callable that records its first argument in the user state and throws it. -/
def throw_it : callable Nat Nat Nat (List Nat) :=
  fun _ args u => (.error (first_value args), u ++ [first_value args])

/-- A callable with two overloads, `int operator()(int&)` returning 1 and
`int operator()(int&&)` returning 2 (and 3 for any other call). -/
def by_category : callable Nat Nat Nat (List Nat) :=
  fun _ args u =>
    match args with
    | [.plain .lvalue _] => (.ok 1, u)
    | [.plain .rvalue _] => (.ok 2, u)
    | _ => (.ok 3, u)

/-- A program with one worker thread, an empty queue, an empty heap and an empty user
state. -/
def fresh_process : internal.process (store Nat Nat (List Nat)) Nat :=
  { pool := internal.task_system.create 1, env := { user := [], heap := [] } }

/-- The requests before a destruction: `async(throw_it, 1)`, thread 0 pops its task,
`async(times_ten, 2)`, `async(by_category, 3)`.  At the end one task is held by thread 0
and two are queued. -/
def c7_requests : List (request Nat Nat Nat (List Nat)) :=
  [.async throw_it [.plain .rvalue 1], .thread 0, .async times_ten [.plain .rvalue 2],
   .async by_category [.plain .rvalue 3]]

/-- A task that is no packaged task: it throws `e` from its body. -/
def raw_throwing_task (e : Nat) : internal.std_function (store Nat Nat (List Nat)) Nat :=
  some fun _ => .error (.thrown e)

/-- The program after a throwing task was pushed through `task_system::push` and then
`async(times_ten, 5)` was called, with the future of that call. -/
def raw_then_async : Nat × internal.process (store Nat Nat (List Nat)) Nat :=
  async times_ten [.plain .rvalue 5]
    { fresh_process with pool := fresh_process.pool.push (raw_throwing_task 9) }

/-! ## Theorems: notification_queue -/

namespace internal

/-- C1: on every queue state with a non-empty sequence, done or not, `pop` returns true
in its first critical section (the caller is never put to sleep), the caller's slot gets
the head, the queue keeps exactly the former tail and `_done` is as it was. -/
theorem pop_nonempty_delivers_head {α : Type} (s : notification_queue α) (x : α)
    (h : s._q ≠ []) :
    s.pop x = .ret true (s._q.head h) { _q := s._q.tail, _done := s._done } ∧
    pop_call.step s (.at_test x) =
      (.returned true (s._q.head h), { _q := s._q.tail, _done := s._done }) := by
  obtain ⟨q, d⟩ := s
  cases q with
  | nil => exact absurd rfl h
  | cons f rest => exact ⟨rfl, rfl⟩

/-- Witness of C1 at the queue 7, 8, 9 with done set. -/
theorem pop_nonempty_delivers_head_witness :
    (({ _q := [7, 8, 9], _done := true } : notification_queue Nat).pop 0 =
      .ret true 7 { _q := [8, 9], _done := true }) ∧
    pop_call.step ({ _q := [7, 8, 9], _done := true } : notification_queue Nat) (.at_test 0) =
      (.returned true 7, { _q := [8, 9], _done := true }) :=
  pop_nonempty_delivers_head { _q := [7, 8, 9], _done := true } 0 (by decide)

/-- C2: `pop` returns false exactly on the states with an empty sequence and done set,
and then the queue state and the caller's slot are what they were; on a state that still
holds a task it does not return false. -/
theorem pop_false_iff {α : Type} (s s1 : notification_queue α) (x y : α) :
    s.pop x = .ret false y s1 ↔ (s._q = [] ∧ s._done = true ∧ y = x ∧ s1 = s) := by
  obtain ⟨q, d⟩ := s
  cases q with
  | nil =>
    cases d with
    | false => simp [notification_queue.pop]
    | true =>
      simp only [notification_queue.pop, List.isEmpty_nil, Bool.not_true, Bool.and_false,
        Bool.false_eq_true, if_false, if_true, pop_result.ret.injEq, true_and]
      constructor
      · rintro ⟨rfl, rfl⟩
        exact ⟨rfl, rfl⟩
      · rintro ⟨rfl, rfl⟩
        exact ⟨rfl, rfl⟩
  | cons f rest => simp [notification_queue.pop]

/-- C3: `push` is a total function of the state and the task: the new sequence is the old
one with the task at the tail, so the old items keep their places and the length grows by
one, and `_done` is as it was, set or not; `task_system::push` does the same to the `_q` of
the pool and touches nothing else. -/
theorem push_appends_at_tail {α σ ε : Type} (s : notification_queue α) (f : α)
    (ts : task_system σ ε) (g : std_function σ ε) :
    s.push f = { _q := s._q ++ [f], _done := s._done } ∧
    (s.push f)._q.length = s._q.length + 1 ∧
    (s.push f)._q.take s._q.length = s._q ∧
    (s.push f)._q.drop s._q.length = [f] ∧
    ts.push g =
      { _count := ts._count, _threads := ts._threads, _q := ts._q.push g } ∧
    (ts.push g)._q = { _q := ts._q._q ++ [g], _done := ts._q._done } := by
  refine ⟨rfl, ?_, ?_, ?_, rfl, rfl⟩
  · simp [notification_queue.push]
  · simp [notification_queue.push]
  · simp [notification_queue.push]

/-- C9: a thread in `pop` goes (back) to sleep from the test of the `while` condition
exactly when the state it finds there has an empty sequence and done not set, leaving the
state as it is; on every other state that critical section returns; and a wakeup, on
whatever state `s1` and for whatever reason, only leads back to the test. -/
theorem pop_blocks_iff {α : Type} (s s1 : notification_queue α) (x : α) :
    ((pop_call.step s (.at_test x)).1 = .in_wait x ↔ (s._q = [] ∧ s._done = false)) ∧
    ((s._q = [] ∧ s._done = false ∧ pop_call.step s (.at_test x) = (.in_wait x, s)) ∨
      ∃ r y s2, pop_call.step s (.at_test x) = (.returned r y, s2)) ∧
    pop_call.step s1 (.in_wait x) = (.at_test x, s1) ∧
    ((pop_call.step s1 (pop_call.step s1 (.in_wait x)).1).1 = .in_wait x ↔
      (s1._q = [] ∧ s1._done = false)) := by
  have key : ∀ t : notification_queue α,
      ((pop_call.step t (.at_test x)).1 = .in_wait x ↔ (t._q = [] ∧ t._done = false)) := by
    intro t
    obtain ⟨q, d⟩ := t
    cases q <;> cases d <;> simp [pop_call.step, notification_queue.pop]
  refine ⟨key s, ?_, rfl, key s1⟩
  obtain ⟨q, d⟩ := s
  cases q <;> cases d <;> simp [pop_call.step, notification_queue.pop]

/-- A step on a queue that is done leaves it done. -/
theorem apply_op_keeps_done {α : Type} (t : notification_queue α) (op : queue_op α)
    (ht : t._done = true) : (t.apply_op op).1._done = true := by
  obtain ⟨q, d⟩ := t
  subst ht
  cases op with
  | push u g => rfl
  | pop u z => cases q <;> rfl
  | done u => rfl

/-- Along an interleaving a queue that is done stays done. -/
theorem run_ops_keeps_done {α : Type} (ops : List (queue_op α)) :
    ∀ t : notification_queue α, t._done = true → (t.run_ops ops).1._done = true := by
  induction ops with
  | nil => intro t ht; exact ht
  | cons op ops ih => intro t ht; exact ih _ (apply_op_keeps_done t op ht)

/-- C10: `done` sets `_done` and leaves `_q` alone, doing it twice is doing it once, and
once `_done` is set no step on the queue (a `push`, a critical section of `pop`, a
`done`), and so no interleaving of such steps, clears it. -/
theorem done_idempotent_one_way {α : Type} (s : notification_queue α) (op : queue_op α)
    (ops : List (queue_op α)) (f x : α) :
    s.done = { _q := s._q, _done := true } ∧
    s.done.done = s.done ∧
    (s.done.push f)._done = true ∧
    (s.done.apply_op op).1._done = true ∧
    (s.done.run_ops ops).1._done = true ∧
    (s._done = true →
      (s.push f)._done = true ∧ s.done._done = true ∧ (s.apply_op op).1._done = true ∧
      ∀ r y s1, s.pop x = .ret r y s1 → s1._done = true) := by
  refine ⟨rfl, rfl, rfl, apply_op_keeps_done _ op rfl, run_ops_keeps_done ops _ rfl, ?_⟩
  intro hd
  refine ⟨hd, rfl, apply_op_keeps_done s op hd, ?_⟩
  intro r y s1 hpop
  obtain ⟨q, d⟩ := s
  subst hd
  cases q with
  | nil =>
    simp only [notification_queue.pop, List.isEmpty_nil, Bool.not_true, Bool.and_false,
      Bool.false_eq_true, if_false, if_true, pop_result.ret.injEq] at hpop
    rw [← hpop.2.2]
  | cons g rest =>
    simp only [notification_queue.pop, List.isEmpty_cons, Bool.false_and,
      Bool.false_eq_true, if_false, pop_result.ret.injEq] at hpop
    rw [← hpop.2.2]

/-- Witness of C10: a done queue holding one task stays done across a `pop`. -/
theorem done_idempotent_one_way_witness :
    (({ _q := [5], _done := true } : notification_queue Nat).apply_op (.pop 0 0)).1._done =
      true :=
  ((done_idempotent_one_way ({ _q := [5], _done := true } : notification_queue Nat)
    (.pop 0 0) [] 0 0).2.2.2.2.2 rfl).2.2.1

/-! ## Theorems: task_system::run -/

/-- An iteration of `run` on a queue whose head is `f`: `f` is popped and called. -/
theorem run_cons {σ ε : Type} (fuel : Nat) (f : std_function σ ε)
    (rest : List (std_function σ ε)) (d : Bool) (env : σ) :
    run (fuel + 1) { _q := f :: rest, _done := d } env =
      match std_function.call f env with
      | .error e => ⟨.threw e, { _q := rest, _done := d }, env, [f]⟩
      | .ok env1 =>
        { run fuel { _q := rest, _done := d } env1 with
          called := f :: (run fuel { _q := rest, _done := d } env1).called } := rfl

/-- On the empty queue that is not done the thread sleeps in `pop`. -/
theorem run_nil_not_done {σ ε : Type} (fuel : Nat) (env : σ) :
    run (fuel + 1) ({ _q := [], _done := false } : notification_queue (std_function σ ε)) env =
      ⟨.blocked, { _q := [], _done := false }, env, []⟩ := rfl

/-- Pushing a list of tasks one by one appends the list. -/
theorem foldl_push {α : Type} (ts : List α) (s : notification_queue α) :
    ts.foldl notification_queue.push s = { _q := s._q ++ ts, _done := s._done } := by
  induction ts generalizing s with
  | nil => simp
  | cons t ts ih => simp [List.foldl_cons, ih, notification_queue.push]

/-- When the calls of `ts` in order all return, `run` on the done queue holding `ts` calls
exactly `ts` in order and returns with the queue empty. -/
theorem run_done_of_call_all {σ ε : Type} (ts : List (std_function σ ε)) :
    ∀ (env env1 : σ) (fuel : Nat), call_all ts env = .ok env1 → ts.length < fuel →
      run fuel { _q := ts, _done := true } env =
        ⟨.returned, { _q := [], _done := true }, env1, ts⟩ := by
  induction ts with
  | nil =>
    intro env env1 fuel h hf
    obtain ⟨k, rfl⟩ : ∃ k, fuel = k + 1 := ⟨fuel - 1, by simp at hf; omega⟩
    simp only [call_all, Except.ok.injEq] at h
    subst h
    rfl
  | cons t ts ih =>
    intro env env1 fuel h hf
    obtain ⟨k, rfl⟩ : ∃ k, fuel = k + 1 := ⟨fuel - 1, by simp at hf; omega⟩
    rw [run_cons]
    simp only [call_all] at h
    cases hc : std_function.call t env with
    | error e => rw [hc] at h; cases h
    | ok env2 =>
      rw [hc] at h
      simp only
      rw [ih env2 env1 k h (by simpa using hf)]

/-- When the calls of `pre` in order return and the call of `t` after them throws `e`,
`run` calls `pre` and `t`, and `e` leaves `run` with `rest` still in the queue. -/
theorem run_threw_at {σ ε : Type} (pre : List (std_function σ ε)) :
    ∀ (env env1 : σ) (fuel : Nat) (t : std_function σ ε) (rest : List (std_function σ ε))
      (d : Bool) (e : failure ε),
      call_all pre env = .ok env1 → std_function.call t env1 = .error e → pre.length < fuel →
      run fuel { _q := pre ++ t :: rest, _done := d } env =
        ⟨.threw e, { _q := rest, _done := d }, env1, pre ++ [t]⟩ := by
  induction pre with
  | nil =>
    intro env env1 fuel t rest d e h ht hf
    obtain ⟨k, rfl⟩ : ∃ k, fuel = k + 1 := ⟨fuel - 1, by simp at hf; omega⟩
    simp only [call_all, Except.ok.injEq] at h
    subst h
    rw [List.nil_append, run_cons, ht]
    rfl
  | cons u pre ih =>
    intro env env1 fuel t rest d e h ht hf
    obtain ⟨k, rfl⟩ : ∃ k, fuel = k + 1 := ⟨fuel - 1, by simp at hf; omega⟩
    rw [List.cons_append, run_cons]
    simp only [call_all] at h
    cases hc : std_function.call u env with
    | error e1 => rw [hc] at h; cases h
    | ok env2 =>
      rw [hc] at h
      simp only
      rw [ih env2 env1 k t rest d e h ht (by simpa using hf)]
      rfl

/-- C4 (amended): for every list of tasks whose calls in push order all return (no task
throws, none is an empty `std::function`; by their type they do not push), pushed in order
onto the empty queue and followed by `done`, the `run` loop of a single thread calls
exactly those tasks, each once and in push order, and returns with the queue empty; any
fuel above the number of tasks is enough. -/
theorem run_executes_pushed_in_order {σ ε : Type} (tasks : List (std_function σ ε))
    (env env1 : σ) (fuel : Nat) (hret : call_all tasks env = .ok env1)
    (hfuel : tasks.length < fuel) :
    run fuel (tasks.foldl notification_queue.push {}).done env =
      ⟨.returned, { _q := [], _done := true }, env1, tasks⟩ := by
  rw [foldl_push]
  exact run_done_of_call_all tasks env env1 fuel hret hfuel

/-- Witness of C4 (amended): three logging tasks. -/
theorem run_executes_pushed_in_order_witness :
    run 4 ([log_task 1, log_task 2, log_task 3].foldl notification_queue.push {}).done [] =
      ⟨.returned, { _q := [], _done := true }, [1, 2, 3],
        [log_task 1, log_task 2, log_task 3]⟩ :=
  run_executes_pushed_in_order [log_task 1, log_task 2, log_task 3] [] [1, 2, 3] 4 rfl
    (by decide)

/-- C4 as stated fails: of the two tasks pushed before `done`, the first throws; the
exception leaves `run`, the second task is never called and stays in the queue, and no
amount of fuel makes `run` return. -/
theorem run_stops_at_throwing_task :
    (run 3 ([throwing_task 7, log_task 2].foldl notification_queue.push {}).done []).how =
      .threw (.thrown 7) ∧
    (run 3 ([throwing_task 7, log_task 2].foldl notification_queue.push {}).done
      []).called.length = 1 ∧
    (run 3 ([throwing_task 7, log_task 2].foldl notification_queue.push {}).done
      []).q._q.length = 1 ∧
    (run 3 ([throwing_task 7, log_task 2].foldl notification_queue.push {}).done []).env = [] ∧
    ¬ ∃ fuel,
      (run fuel ([throwing_task 7, log_task 2].foldl notification_queue.push {}).done []).how =
        .returned := by
  refine ⟨by decide, by decide, by decide, by decide, ?_⟩
  rintro ⟨fuel, h⟩
  cases fuel with
  | zero => exact absurd h (by decide)
  | succ k =>
    have hrun := run_threw_at ([] : List (std_function (List Nat) Nat)) [] [] (k + 1)
      (throwing_task 7) [log_task 2] true (.thrown 7) rfl rfl (by simp)
    have hq : ([throwing_task 7, log_task 2].foldl notification_queue.push {}).done =
        { _q := [] ++ throwing_task 7 :: [log_task 2], _done := true } := rfl
    rw [hq, hrun] at h
    cases h

end internal

open internal

/-! ## Theorems: async -/

/-- The call of the task made by `async` for the object `ptr`, on a store in which that
object is alive with its shared state pending: the stored call runs once on the user
state, its value or exception goes into the shared state, the object is deleted, and the
call of the task returns. -/
theorem call_async_task {ρ ε υ : Type} (ptr : Nat) (st : store ρ ε υ)
    (fn : υ → Except ε ρ × υ) (h : st.heap[ptr]? = some ⟨fn, .pending, true⟩) :
    std_function.call (async_task ptr) st =
      .ok { user := (fn st.user).2,
            heap := st.heap.set ptr ⟨fn, state_of (fn st.user).1, false⟩ } := by
  have hlt : ptr < st.heap.length := (List.getElem?_eq_some.mp h).1
  simp only [std_function.call, async_task, packaged_task_call, h, Bool.not_true,
    Bool.false_eq_true, if_false, delete_ptr, List.getElem?_set_self hlt, List.set_set]
  cases (fn st.user).1 <;> rfl

/-- The number of outcomes is the number of calls. -/
theorem outcomes_length {α ρ ε υ : Type} (cs : List (callable α ρ ε υ × List (argument α υ))) :
    ∀ u : υ, (outcomes cs u).1.length = cs.length := by
  induction cs with
  | nil => intro u; rfl
  | cons c cs ih => intro u; simp [outcomes, ih]

/-- What a list of `async` calls leaves: the futures are the next heap indices, the heap
has one new object per call, the queue one new task per call, in the order of the calls,
and nothing else has changed. -/
theorem async_all_spec {α ρ ε υ : Type} (cs : List (callable α ρ ε υ × List (argument α υ))) :
    ∀ p : process (store ρ ε υ) ε,
      (async_all cs p).1 = List.range' p.env.heap.length cs.length ∧
      (async_all cs p).2 =
        { pool := { _count := p.pool._count, _threads := p.pool._threads,
                    _q := { _q := p.pool._q._q ++
                              (List.range' p.env.heap.length cs.length).map async_task,
                            _done := p.pool._q._done } },
          env := { user := p.env.user, heap := p.env.heap ++ cs.map new_task },
          terminated := p.terminated } := by
  induction cs with
  | nil => intro p; simp [async_all]
  | cons c cs ih =>
    intro p
    obtain ⟨h1, h2⟩ := ih (async c.1 c.2 p).2
    simp only [async_all]
    rw [h1, h2]
    simp [async, push_queue, task_system.push, notification_queue.push, List.range'_succ,
      new_task]

/-- The calls, in order, of the tasks made by a list of `async` calls whose objects are
at the end of the heap, as allocated: every call returns, and they leave the user state
and the shared states the stored calls in that order produce. -/
theorem call_all_async_tasks {α ρ ε υ : Type} (cs : List (callable α ρ ε υ × List (argument α υ))) :
    ∀ (pre : List (packaged_task ρ ε υ)) (u : υ),
      call_all ((List.range' pre.length cs.length).map async_task)
          ({ user := u, heap := pre ++ cs.map new_task } : store ρ ε υ) =
        .ok { user := (outcomes cs u).2,
              heap := pre ++ List.zipWith run_task cs (outcomes cs u).1 } := by
  induction cs with
  | nil => intro pre u; simp [call_all, outcomes]
  | cons c cs ih =>
    intro pre u
    have hget : (({ user := u, heap := pre ++ (c :: cs).map new_task } :
        store ρ ε υ).heap)[pre.length]? = some ⟨std_bind c.1 c.2, .pending, true⟩ := by
      show (pre ++ (c :: cs).map new_task)[pre.length]? = _
      rw [List.getElem?_append_right (Nat.le_refl _)]
      simp [new_task]
    simp only [List.length_cons, List.range'_succ, List.map_cons, call_all]
    rw [← List.map_cons, call_async_task pre.length _ (std_bind c.1 c.2) hget]
    simp only [List.map_cons]
    have hset : (pre ++ new_task c :: cs.map new_task).set pre.length
        ⟨std_bind c.1 c.2, state_of (std_bind c.1 c.2 u).1, false⟩ =
        (pre ++ [run_task c (std_bind c.1 c.2 u).1]) ++ cs.map new_task := by
      simp [List.set_append, run_task]
    rw [hset]
    have hlen : (pre ++ [run_task c (std_bind c.1 c.2 u).1]).length = pre.length + 1 := by simp
    rw [← hlen, ih (pre ++ [run_task c (std_bind c.1 c.2 u).1]) (std_bind c.1 c.2 u).2]
    simp [outcomes]

/-- On the store the tasks leave, `get()` on the futures gives the outcomes. -/
theorem future_get_run_tasks {α ρ ε υ : Type} (cs : List (callable α ρ ε υ × List (argument α υ))) :
    ∀ (rs : List (Except ε ρ)) (pre : List (packaged_task ρ ε υ)) (u : υ),
      rs.length = cs.length →
      (List.range' pre.length cs.length).map
          (future_get ({ user := u, heap := pre ++ List.zipWith run_task cs rs } :
            store ρ ε υ)) =
        rs.map get_of := by
  induction cs with
  | nil =>
    intro rs pre u h
    cases rs with
    | nil => rfl
    | cons r rs => simp at h
  | cons c cs ih =>
    intro rs pre u h
    cases rs with
    | nil => simp at h
    | cons r rs =>
      have hlen : (pre ++ [run_task c r]).length = pre.length + 1 := by simp
      have hih := ih rs (pre ++ [run_task c r]) u (by simpa using h)
      rw [hlen] at hih
      simp only [List.length_cons, List.range'_succ, List.map_cons, List.zipWith_cons_cons]
      have hheap : pre ++ run_task c r :: List.zipWith run_task cs rs =
          (pre ++ [run_task c r]) ++ List.zipWith run_task cs rs := by simp
      rw [hheap, hih]
      congr 1
      simp only [future_get]
      rw [List.getElem?_append_left (by simp)]
      rw [List.getElem?_concat_length]
      cases r <;> rfl

/-- C6 (amended): for every list of `async` calls on a new pool, followed by `done`, the
`run` loop of a worker calls the task of every one of them, in order, and returns (no
exception leaves `run`, whatever the callables throw) with the queue empty; `get()` on
each future gives the outcome of its own stored call `std::bind(f, args...)`, the thrown
exception when it threw, and the calls after a throwing one are made all the same. -/
theorem async_failures_stay_in_future {α ρ ε υ : Type}
    (cs : List (callable α ρ ε υ × List (argument α υ))) (st : store ρ ε υ)
    (hardware_concurrency fuel : Nat) (hfuel : cs.length < fuel) :
    (submit_and_drain cs st hardware_concurrency fuel).2.how = .returned ∧
    (submit_and_drain cs st hardware_concurrency fuel).2.q = { _q := [], _done := true } ∧
    (submit_and_drain cs st hardware_concurrency fuel).2.called =
      (submit_and_drain cs st hardware_concurrency fuel).1.map async_task ∧
    (submit_and_drain cs st hardware_concurrency fuel).1.length = cs.length ∧
    (submit_and_drain cs st hardware_concurrency fuel).1.map
        (future_get (submit_and_drain cs st hardware_concurrency fuel).2.env) =
      (outcomes cs st.user).1.map get_of ∧
    (submit_and_drain cs st hardware_concurrency fuel).2.env.user =
      (outcomes cs st.user).2 := by
  obtain ⟨h1, h2⟩ := async_all_spec cs
    ({ pool := task_system.create hardware_concurrency, env := st } :
      process (store ρ ε υ) ε)
  have hrun := run_done_of_call_all
    ((List.range' st.heap.length cs.length).map async_task)
    ({ user := st.user, heap := st.heap ++ cs.map new_task } : store ρ ε υ) _ fuel
    (call_all_async_tasks cs st.heap st.user) (by simpa using hfuel)
  simp only [submit_and_drain]
  rw [h1, h2]
  simp only [task_system.create, notification_queue.done, List.nil_append]
  rw [hrun]
  refine ⟨rfl, rfl, rfl, by simp, ?_, rfl⟩
  exact future_get_run_tasks cs _ st.heap _ (outcomes_length cs st.user)

/-- Witness of C6 (amended): the first of two callables throws, the second returns. -/
theorem async_failures_stay_in_future_witness :
    (submit_and_drain [(throw_it, [.plain .rvalue 1]), (times_ten, [.plain .rvalue 2])]
      fresh_process.env 1 3).2.how = .returned ∧
    (submit_and_drain [(throw_it, [.plain .rvalue 1]), (times_ten, [.plain .rvalue 2])]
      fresh_process.env 1 3).1.map
        (future_get (submit_and_drain
          [(throw_it, [.plain .rvalue 1]), (times_ten, [.plain .rvalue 2])]
          fresh_process.env 1 3).2.env) =
      [.rethrows 1, .returns 20] :=
  ⟨(async_failures_stay_in_future
      [(throw_it, [.plain .rvalue 1]), (times_ten, [.plain .rvalue 2])]
      fresh_process.env 1 3 (by decide)).1,
   (async_failures_stay_in_future
      [(throw_it, [.plain .rvalue 1]), (times_ten, [.plain .rvalue 2])]
      fresh_process.env 1 3 (by decide)).2.2.2.2.1⟩

/-- C6 as stated fails: a task pushed through `task_system::push` that throws from its
body has no future; the exception leaves `run`, and the task of the `async` call queued
behind it is never called: it stays in the queue and its future stays pending. -/
theorem raw_task_failure_leaves_run :
    (run 3 raw_then_async.2.pool._q.done raw_then_async.2.env).how = .threw (.thrown 9) ∧
    (run 3 raw_then_async.2.pool._q.done raw_then_async.2.env).called.length = 1 ∧
    (run 3 raw_then_async.2.pool._q.done raw_then_async.2.env).q._q.length = 1 ∧
    raw_then_async.2.env.heap.length = 1 ∧
    future_get (run 3 raw_then_async.2.pool._q.done raw_then_async.2.env).env
      raw_then_async.1 = .blocks := by
  refine ⟨by decide, by decide, by decide, by decide, by decide⟩

/-! ## Theorems: interleavings on the queue -/

/-- The held tasks of a concatenation. -/
theorem held_append {σ ε : Type} (l1 l2 : List (thread σ ε)) :
    held (l1 ++ l2) = held l1 ++ held l2 := by
  induction l1 with
  | nil => rfl
  | cons w l1 ih => cases w <;> simp [held, ih]

/-- An entry of a list splits the list around it. -/
theorem split_at_index {β : Type} (l : List β) :
    ∀ (i : Nat) (w : β), l[i]? = some w → ∃ l1 l2, l = l1 ++ w :: l2 ∧ l1.length = i := by
  induction l with
  | nil => intro i w h; simp at h
  | cons a l ih =>
    intro i w h
    cases i with
    | zero =>
      simp only [List.getElem?_cons_zero, Option.some.injEq] at h
      exact ⟨[], l, by simp [h], rfl⟩
    | succ i =>
      simp only [List.getElem?_cons_succ] at h
      obtain ⟨l1, l2, h1, h2⟩ := ih i w h
      exact ⟨a :: l1, l2, by simp [h1], by simp [h2]⟩

/-- The entry in the middle. -/
theorem getElem?_middle {β : Type} (l1 l2 : List β) (w : β) :
    (l1 ++ w :: l2)[l1.length]? = some w := by
  rw [List.getElem?_append_right (Nat.le_refl _)]
  simp

/-- Replacing the entry in the middle. -/
theorem set_middle {β : Type} (l1 l2 : List β) (w a : β) :
    (l1 ++ w :: l2).set l1.length a = l1 ++ a :: l2 := by
  simp [List.set_append]

/-- One step of a thread of a program that has not terminated.  The done flag is as it
was.  A step that is no call leaves the state of the tasks and does not terminate the
program.  A step that is a call is the call of a task the thread held: it returns and
leaves its state, or it throws and the program is terminated.  As long as the program is
not terminated, no task is lost or duplicated, a thread has returned only if the queue is
empty, and, when the queue is done and the thread has not returned, what is left to do
has decreased. -/
theorem step_spec {σ ε : Type} (p : process σ ε) (i : Nat) (hterm : p.terminated = none) :
    (p.step i).1.pool._q._done = p.pool._q._done ∧
    ((p.step i).2 = none → (p.step i).1.env = p.env ∧ (p.step i).1.terminated = none) ∧
    (∀ f, (p.step i).2 = some f → f ∈ held p.pool._threads ∧
      ((std_function.call f p.env = .ok (p.step i).1.env ∧
          (p.step i).1.terminated = none) ∨
        ∃ e, std_function.call f p.env = .error e ∧ (p.step i).1.terminated = some e)) ∧
    ((p.step i).1.terminated = none →
      ((p.step i).2.toList ++
          (held (p.step i).1.pool._threads ++ (p.step i).1.pool._q._q)).Perm
        (held p.pool._threads ++ p.pool._q._q) ∧
      ((thread.returned ∈ p.pool._threads → p.pool._q._q = []) →
        thread.returned ∈ (p.step i).1.pool._threads → (p.step i).1.pool._q._q = []) ∧
      (p.pool._q._done = true → (∃ w, p.pool._threads[i]? = some w ∧ w ≠ .returned) →
        (p.step i).1.remaining < p.remaining)) := by
  obtain ⟨⟨cnt, threads, ⟨q, d⟩⟩, env, term⟩ := p
  simp only at hterm
  subst hterm
  cases hi : threads[i]? with
  | none =>
    have hstep : process.step ⟨⟨cnt, threads, ⟨q, d⟩⟩, env, none⟩ i =
        (⟨⟨cnt, threads, ⟨q, d⟩⟩, env, none⟩, none) := by
      simp [process.step, hi]
    rw [hstep]
    refine ⟨rfl, fun _ => ⟨rfl, rfl⟩, (fun f h => by cases h), fun _ => ⟨by simp, fun hJ => hJ, ?_⟩⟩
    rintro - ⟨w, hw, -⟩
    simp at hw
  | some w =>
    obtain ⟨l1, l2, rfl, rfl⟩ := split_at_index threads i w hi
    cases w with
    | popping =>
      cases q with
      | nil =>
        cases d with
        | false =>
          have hstep : process.step
              ⟨⟨cnt, l1 ++ thread.popping :: l2, ⟨[], false⟩⟩, env, none⟩ l1.length =
              (⟨⟨cnt, l1 ++ thread.waiting :: l2, ⟨[], false⟩⟩, env, none⟩, none) := by
            simp only [process.step, getElem?_middle, set_middle, notification_queue.pop]
            rfl
          rw [hstep]
          refine ⟨rfl, fun _ => ⟨rfl, rfl⟩, (fun f h => by cases h),
            fun _ => ⟨by simp [held_append, held], by simp, ?_⟩⟩
          intro h
          simp at h
        | true =>
          have hstep : process.step
              ⟨⟨cnt, l1 ++ thread.popping :: l2, ⟨[], true⟩⟩, env, none⟩ l1.length =
              (⟨⟨cnt, l1 ++ thread.returned :: l2, ⟨[], true⟩⟩, env, none⟩, none) := by
            simp only [process.step, getElem?_middle, set_middle, notification_queue.pop]
            rfl
          rw [hstep]
          refine ⟨rfl, fun _ => ⟨rfl, rfl⟩, (fun f h => by cases h),
            fun _ => ⟨by simp [held_append, held], by simp, ?_⟩⟩
          intro _ _
          simp [process.remaining, thread.weight]
      | cons f rest =>
        have hstep : process.step
            ⟨⟨cnt, l1 ++ thread.popping :: l2, ⟨f :: rest, d⟩⟩, env, none⟩ l1.length =
            (⟨⟨cnt, l1 ++ thread.calling f :: l2, ⟨rest, d⟩⟩, env, none⟩, none) := by
          simp only [process.step, getElem?_middle, set_middle, notification_queue.pop]
          rfl
        rw [hstep]
        refine ⟨rfl, fun _ => ⟨rfl, rfl⟩, (fun f h => by cases h), fun _ => ⟨?_, ?_, ?_⟩⟩
        · simp only [Option.toList, List.nil_append, held_append, held]
          rw [List.append_assoc, List.append_assoc]
          exact List.Perm.append_left _ (by
            simp only [List.cons_append]
            exact (List.perm_middle).symm)
        · intro hJ hmem
          simp only [List.mem_append, List.mem_cons] at hmem
          have hold : thread.returned ∈ l1 ++ thread.popping :: l2 := by
            rcases hmem with h | h | h
            · exact List.mem_append_left _ h
            · cases h
            · exact List.mem_append_right _ (List.mem_cons_of_mem _ h)
          exact absurd (hJ hold) (by simp)
        · intro _ _
          simp only [process.remaining, thread.weight, List.map_append, List.map_cons,
            List.sum_append, List.sum_cons, List.length_cons]
          omega
    | waiting =>
      have hstep : process.step
          ⟨⟨cnt, l1 ++ thread.waiting :: l2, ⟨q, d⟩⟩, env, none⟩ l1.length =
          (⟨⟨cnt, l1 ++ thread.popping :: l2, ⟨q, d⟩⟩, env, none⟩, none) := by
        simp only [process.step, getElem?_middle, set_middle]
        rfl
      rw [hstep]
      refine ⟨rfl, fun _ => ⟨rfl, rfl⟩, (fun f h => by cases h),
        fun _ => ⟨by simp [held_append, held], ?_, ?_⟩⟩
      · intro hJ hmem
        apply hJ
        simp only [List.mem_append, List.mem_cons] at hmem
        rcases hmem with h | h | h
        · exact List.mem_append_left _ h
        · cases h
        · exact List.mem_append_right _ (List.mem_cons_of_mem _ h)
      · intro _ _
        simp only [process.remaining, thread.weight, List.map_append, List.map_cons,
          List.sum_append, List.sum_cons]
        omega
    | calling f =>
      have hheld : f ∈ held (l1 ++ thread.calling f :: l2) := by
        simp [held_append, held]
      cases hcall : std_function.call f env with
      | ok env1 =>
        have hstep : process.step
            ⟨⟨cnt, l1 ++ thread.calling f :: l2, ⟨q, d⟩⟩, env, none⟩ l1.length =
            (⟨⟨cnt, l1 ++ thread.popping :: l2, ⟨q, d⟩⟩, env1, none⟩, some f) := by
          simp only [process.step, getElem?_middle, set_middle, hcall]
          rfl
        rw [hstep]
        refine ⟨rfl, (fun h => by cases h), ?_, fun _ => ⟨?_, ?_, ?_⟩⟩
        · intro g hg
          cases hg
          exact ⟨hheld, Or.inl ⟨hcall, rfl⟩⟩
        · simp only [Option.toList, held_append, held, List.singleton_append]
          rw [List.append_assoc, List.append_assoc]
          simp only [List.cons_append]
          exact (List.perm_middle).symm
        · intro hJ hmem
          apply hJ
          simp only [List.mem_append, List.mem_cons] at hmem
          rcases hmem with h | h | h
          · exact List.mem_append_left _ h
          · cases h
          · exact List.mem_append_right _ (List.mem_cons_of_mem _ h)
        · intro _ _
          simp only [process.remaining, thread.weight, List.map_append, List.map_cons,
            List.sum_append, List.sum_cons]
          omega
      | error e =>
        have hstep : process.step
            ⟨⟨cnt, l1 ++ thread.calling f :: l2, ⟨q, d⟩⟩, env, none⟩ l1.length =
            (⟨⟨cnt, l1 ++ thread.calling f :: l2, ⟨q, d⟩⟩, env, some e⟩, some f) := by
          simp only [process.step, getElem?_middle, set_middle, hcall]
          rfl
        rw [hstep]
        refine ⟨rfl, (fun h => by cases h), ?_, (fun h => by cases h)⟩
        intro g hg
        cases hg
        exact ⟨hheld, Or.inr ⟨e, hcall, rfl⟩⟩
    | returned =>
      have hstep : process.step
          ⟨⟨cnt, l1 ++ thread.returned :: l2, ⟨q, d⟩⟩, env, none⟩ l1.length =
          (⟨⟨cnt, l1 ++ thread.returned :: l2, ⟨q, d⟩⟩, env, none⟩, none) := by
        simp only [process.step, getElem?_middle]
        rfl
      rw [hstep]
      refine ⟨rfl, fun _ => ⟨rfl, rfl⟩, (fun f h => by cases h),
        fun _ => ⟨by simp, fun hJ => hJ, ?_⟩⟩
      rintro - ⟨w, hw, hne⟩
      exact absurd (Option.some.inj hw).symm hne

/-- A step keeps the number of threads. -/
theorem step_threads_length {σ ε : Type} (p : process σ ε) (i : Nat) :
    (p.step i).1.pool._threads.length = p.pool._threads.length := by
  simp only [process.step]
  split
  · rfl
  · split
    · rfl
    · split <;> simp
    · simp
    · split <;> simp
    · rfl

/-- A schedule from the concatenation of two. -/
theorem steps_append {σ ε : Type} (a b : List Nat) :
    ∀ p : process σ ε, p.steps (a ++ b) =
      (((p.steps a).1.steps b).1, (p.steps a).2 ++ ((p.steps a).1.steps b).2) := by
  induction a with
  | nil => intro p; simp [process.steps]
  | cons i a ih =>
    intro p
    have h := ih (p.step i).1
    simp only [List.cons_append, process.steps, List.append_eq, h, List.append_assoc]

/-- A terminated program takes no step. -/
theorem step_of_terminated {σ ε : Type} (p : process σ ε) (i : Nat) (e : failure ε)
    (h : p.terminated = some e) : p.step i = (p, none) := by
  simp [process.step, h]

/-- A terminated program stays as it is along every schedule. -/
theorem steps_of_terminated {σ ε : Type} (sched : List Nat) (p : process σ ε)
    (e : failure ε) (h : p.terminated = some e) : p.steps sched = (p, []) := by
  induction sched with
  | nil => rfl
  | cons i sched ih =>
    simp only [process.steps, step_of_terminated p i e h, ih, Option.toList,
      List.append_nil]

/-- A program that has not terminated after a schedule had not terminated before it. -/
theorem alive_before {σ ε : Type} (sched : List Nat) (p : process σ ε)
    (h : (p.steps sched).1.terminated = none) : p.terminated = none := by
  cases hp : p.terminated with
  | none => rfl
  | some e =>
    rw [steps_of_terminated sched p e hp, hp] at h
    cases h

/-- Along every schedule after which the program has not terminated: the done flag is as
it was, the number of threads is as it was, no task is lost or duplicated, and a thread
has returned only if the queue is empty. -/
theorem steps_spec {σ ε : Type} (sched : List Nat) :
    ∀ p : process σ ε, (p.steps sched).1.terminated = none →
      (p.steps sched).1.pool._q._done = p.pool._q._done ∧
      (p.steps sched).1.pool._threads.length = p.pool._threads.length ∧
      ((p.steps sched).2 ++
          (held (p.steps sched).1.pool._threads ++ (p.steps sched).1.pool._q._q)).Perm
        (held p.pool._threads ++ p.pool._q._q) ∧
      ((thread.returned ∈ p.pool._threads → p.pool._q._q = []) →
        thread.returned ∈ (p.steps sched).1.pool._threads →
          (p.steps sched).1.pool._q._q = []) := by
  induction sched with
  | nil =>
    intro p _
    exact ⟨rfl, rfl, by simp [process.steps], fun hJ => hJ⟩
  | cons i sched ih =>
    intro p hfinal
    have hterm : p.terminated = none := alive_before (i :: sched) p hfinal
    have hfinal1 : ((p.step i).1.steps sched).1.terminated = none := hfinal
    have h1 : (p.step i).1.terminated = none := alive_before sched _ hfinal1
    obtain ⟨hd, _, _, hrest⟩ := step_spec p i hterm
    obtain ⟨h3, h4, _⟩ := hrest h1
    obtain ⟨k2, k3, k4, k5⟩ := ih (p.step i).1 hfinal1
    refine ⟨k2.trans hd, k3.trans (step_threads_length p i), ?_, fun hJ => k5 (h4 hJ)⟩
    simp only [process.steps, List.append_assoc]
    exact (List.Perm.append_left _ k4).trans h3

/-- A pool that is not joined has a thread that has not returned. -/
theorem exists_thread_of_not_joined {σ ε : Type} (ts : task_system σ ε)
    (h : ¬ ts.joined = true) :
    ∃ (i : Nat) (w : thread σ ε), ts._threads[i]? = some w ∧ w ≠ thread.returned := by
  simp only [task_system.joined, List.all_eq_true, not_forall] at h
  obtain ⟨w, hw, hne⟩ := h
  obtain ⟨i, hi⟩ := List.getElem?_of_mem hw
  refine ⟨i, w, hi, ?_⟩
  rintro rfl
  exact hne rfl

/-- In a joined pool no thread holds a task, and, if the pool has a thread, a thread has
returned. -/
theorem joined_spec {σ ε : Type} (l : List (thread σ ε))
    (h : (l.all fun t => match t with
      | .returned => true
      | _ => false) = true) :
    held l = [] ∧ (l ≠ [] → thread.returned ∈ l) := by
  induction l with
  | nil => exact ⟨rfl, fun h => absurd rfl h⟩
  | cons w l ih =>
    simp only [List.all_cons, Bool.and_eq_true] at h
    cases w with
    | returned => exact ⟨by simpa [held] using (ih h.2).1, fun _ => List.mem_cons_self _ _⟩
    | popping => simp at h
    | waiting => simp at h
    | calling f => simp at h

/-- Once the queue is done, the threads never get stuck: from a program that has not
terminated there is a schedule after which every thread has returned or an exception has
left a thread. -/
theorem exists_completion {σ ε : Type} (n : Nat) :
    ∀ p : process σ ε, p.remaining ≤ n → p.terminated = none → p.pool._q._done = true →
      ∃ sched, (p.steps sched).1.pool.joined = true ∨
        (p.steps sched).1.terminated.isSome = true := by
  induction n with
  | zero =>
    intro p hn hterm hdone
    by_cases hj : p.pool.joined = true
    · exact ⟨[], Or.inl hj⟩
    · obtain ⟨i, w, hi, hw⟩ := exists_thread_of_not_joined p.pool hj
      cases h1 : (p.step i).1.terminated with
      | some e => exact ⟨[i], Or.inr (by simp [process.steps, h1])⟩
      | none =>
        have hlt := ((step_spec p i hterm).2.2.2 h1).2.2 hdone ⟨w, hi, hw⟩
        omega
  | succ n ih =>
    intro p hn hterm hdone
    by_cases hj : p.pool.joined = true
    · exact ⟨[], Or.inl hj⟩
    · obtain ⟨i, w, hi, hw⟩ := exists_thread_of_not_joined p.pool hj
      cases h1 : (p.step i).1.terminated with
      | some e => exact ⟨[i], Or.inr (by simp [process.steps, h1])⟩
      | none =>
        obtain ⟨hd, _, _, hrest⟩ := step_spec p i hterm
        have hlt := (hrest h1).2.2 hdone ⟨w, hi, hw⟩
        obtain ⟨sched, hs⟩ := ih (p.step i).1 (by omega) h1 (hd.trans hdone)
        exact ⟨i :: sched, hs⟩

/-- Shutdown from a state in which the pool has a thread and no thread has returned:
after `_q.done()`, along every schedule of the threads after
which no exception has left a thread, no task is lost or duplicated, and when every
thread has returned the queue is empty and the tasks called are the tasks that were
queued or held at the signal, each once; and from every state so reached there is a
schedule after which every thread has returned or an exception has left a thread. -/
theorem shutdown_spec {σ ε : Type} (p : process σ ε) (sched : List Nat)
    (hthreads : p.pool._threads ≠ [])
    (hnone : thread.returned ∉ p.pool._threads) :
    ((({ p with pool := p.pool.signal_done }).steps sched).1.terminated = none →
      ((({ p with pool := p.pool.signal_done }).steps sched).2 ++
          (held (({ p with pool := p.pool.signal_done }).steps sched).1.pool._threads ++
            (({ p with pool := p.pool.signal_done }).steps sched).1.pool._q._q)).Perm
        (held p.pool._threads ++ p.pool._q._q) ∧
      ((({ p with pool := p.pool.signal_done }).steps sched).1.pool.joined = true →
        (({ p with pool := p.pool.signal_done }).steps sched).1.pool._q._q = [] ∧
        (({ p with pool := p.pool.signal_done }).steps sched).2.Perm
          (held p.pool._threads ++ p.pool._q._q))) ∧
    ∃ more,
      (({ p with pool := p.pool.signal_done }).steps (sched ++ more)).1.pool.joined =
          true ∨
        (({ p with pool := p.pool.signal_done }).steps
          (sched ++ more)).1.terminated.isSome = true := by
  constructor
  · intro hfinal
    obtain ⟨_, k3, k4, k5⟩ :=
      steps_spec sched ({ p with pool := p.pool.signal_done }) hfinal
    refine ⟨k4, ?_⟩
    intro hj
    obtain ⟨hheld, hmem⟩ := joined_spec _ hj
    have hne : (({ p with pool := p.pool.signal_done }).steps sched).1.pool._threads ≠ [] := by
      intro h
      rw [h] at k3
      exact hthreads (List.length_eq_zero.mp k3.symm)
    have hq := k5 (fun h => absurd h hnone) (hmem hne)
    refine ⟨hq, ?_⟩
    have h := k4
    rw [hheld, hq] at h
    simpa using h
  · cases hfinal : (({ p with pool := p.pool.signal_done }).steps sched).1.terminated with
    | some e => exact ⟨[], Or.inr (by rw [List.append_nil, hfinal]; rfl)⟩
    | none =>
      obtain ⟨k2, _, _, _⟩ :=
        steps_spec sched ({ p with pool := p.pool.signal_done }) hfinal
      obtain ⟨more, hmore⟩ := exists_completion _
        (({ p with pool := p.pool.signal_done }).steps sched).1 (Nat.le_refl _) hfinal
        (k2.trans rfl)
      exact ⟨more, by rw [steps_append]; exact hmore⟩

/-- A thread does not return from `run` while the queue is not done. -/
theorem step_not_returned {σ ε : Type} (p : process σ ε) (i : Nat)
    (hd : p.pool._q._done = false) (h : thread.returned ∉ p.pool._threads) :
    thread.returned ∉ (p.step i).1.pool._threads := by
  obtain ⟨⟨cnt, threads, ⟨q, d⟩⟩, env, term⟩ := p
  simp only at hd h
  subst hd
  cases term with
  | some e => simpa [process.step] using h
  | none =>
    cases hi : threads[i]? with
    | none => simpa [process.step, hi] using h
    | some w =>
      obtain ⟨l1, l2, rfl, rfl⟩ := split_at_index threads i w hi
      have hswap : ∀ a : thread σ ε, a ≠ thread.returned →
          thread.returned ∉ l1 ++ a :: l2 := by
        intro a ha hmem
        simp only [List.mem_append, List.mem_cons] at hmem
        rcases hmem with hm | hm | hm
        · exact h (List.mem_append_left _ hm)
        · exact ha hm.symm
        · exact h (List.mem_append_right _ (List.mem_cons_of_mem _ hm))
      cases w with
      | popping =>
        cases q with
        | nil =>
          have hstep : process.step
              ⟨⟨cnt, l1 ++ thread.popping :: l2, ⟨[], false⟩⟩, env, none⟩ l1.length =
              (⟨⟨cnt, l1 ++ thread.waiting :: l2, ⟨[], false⟩⟩, env, none⟩, none) := by
            simp only [process.step, getElem?_middle, set_middle, notification_queue.pop]
            rfl
          rw [hstep]
          exact hswap _ (by simp)
        | cons f rest =>
          have hstep : process.step
              ⟨⟨cnt, l1 ++ thread.popping :: l2, ⟨f :: rest, false⟩⟩, env, none⟩ l1.length =
              (⟨⟨cnt, l1 ++ thread.calling f :: l2, ⟨rest, false⟩⟩, env, none⟩, none) := by
            simp only [process.step, getElem?_middle, set_middle, notification_queue.pop]
            rfl
          rw [hstep]
          exact hswap _ (by simp)
      | waiting =>
        have hstep : process.step
            ⟨⟨cnt, l1 ++ thread.waiting :: l2, ⟨q, false⟩⟩, env, none⟩ l1.length =
            (⟨⟨cnt, l1 ++ thread.popping :: l2, ⟨q, false⟩⟩, env, none⟩, none) := by
          simp only [process.step, getElem?_middle, set_middle]
          rfl
        rw [hstep]
        exact hswap _ (by simp)
      | calling f =>
        cases hcall : std_function.call f env with
        | ok env1 =>
          have hstep : process.step
              ⟨⟨cnt, l1 ++ thread.calling f :: l2, ⟨q, false⟩⟩, env, none⟩ l1.length =
              (⟨⟨cnt, l1 ++ thread.popping :: l2, ⟨q, false⟩⟩, env1, none⟩, some f) := by
            simp only [process.step, getElem?_middle, set_middle, hcall]
            rfl
          rw [hstep]
          exact hswap _ (by simp)
        | error e =>
          have hstep : process.step
              ⟨⟨cnt, l1 ++ thread.calling f :: l2, ⟨q, false⟩⟩, env, none⟩ l1.length =
              (⟨⟨cnt, l1 ++ thread.calling f :: l2, ⟨q, false⟩⟩, env, some e⟩, some f) := by
            simp only [process.step, getElem?_middle, set_middle, hcall]
            rfl
          rw [hstep]
          exact h
      | returned => exact absurd (List.mem_append_right _ (List.mem_cons_self _ _)) h

/-- The threads of a new pool hold no task and none has returned. -/
theorem replicate_popping {σ ε : Type} (n : Nat) :
    held (List.replicate n (thread.popping : thread σ ε)) = [] ∧
    thread.returned ∉ List.replicate n (thread.popping : thread σ ε) := by
  induction n with
  | zero => exact ⟨rfl, by simp⟩
  | succ n ih =>
    refine ⟨by simpa [List.replicate, held] using ih.1, ?_⟩
    intro h
    have := List.eq_of_mem_replicate h
    cases this

/-- A terminated program stays terminated along every sequence of events. -/
theorem events_of_terminated {σ ε : Type} (evs : List (event σ ε)) :
    ∀ (p : process σ ε) (e : failure ε), p.terminated = some e →
      (p.events evs).1.terminated = some e := by
  induction evs with
  | nil => intro p e h; exact h
  | cons ev evs ih =>
    intro p e h
    cases ev with
    | push f => exact ih _ e h
    | thread i =>
      have hs : (p.handle (event.thread i)).1 = p := by
        show (p.step i).1 = p
        rw [step_of_terminated p i e h]
      show ((p.handle (event.thread i)).1.events evs).1.terminated = some e
      rw [hs]
      exact ih p e h

/-- Before the destructor runs: along every sequence of pushes and steps of the threads
after which the program has not terminated, from a state that is not done and in which no
thread has returned, the queue stays not done, no thread returns, the number of threads
stays, and no task is lost or duplicated. -/
theorem events_spec {σ ε : Type} (evs : List (event σ ε)) :
    ∀ p : process σ ε, (p.events evs).1.terminated = none → p.pool._q._done = false →
      thread.returned ∉ p.pool._threads →
      (p.events evs).1.pool._q._done = false ∧
      thread.returned ∉ (p.events evs).1.pool._threads ∧
      (p.events evs).1.pool._threads.length = p.pool._threads.length ∧
      ((p.events evs).2 ++
          (held (p.events evs).1.pool._threads ++ (p.events evs).1.pool._q._q)).Perm
        (held p.pool._threads ++ p.pool._q._q ++ pushed_tasks evs) := by
  induction evs with
  | nil =>
    intro p _ hd hnone
    exact ⟨hd, hnone, rfl, by simp [process.events, pushed_tasks]⟩
  | cons e evs ih =>
    intro p hfinal hd hnone
    have hterm : p.terminated = none := by
      cases hp : p.terminated with
      | none => rfl
      | some x =>
        rw [events_of_terminated (e :: evs) p x hp] at hfinal
        cases hfinal
    cases e with
    | push f =>
      obtain ⟨k2, k3, k4, k5⟩ :=
        ih ({ p with pool := p.pool.push f } : process σ ε) hfinal hd hnone
      refine ⟨k2, k3, k4, ?_⟩
      simp only [process.events, process.handle, Option.toList, List.nil_append,
        pushed_tasks]
      refine k5.trans ?_
      simp [task_system.push, notification_queue.push]
    | thread i =>
      have hfinal1 : ((p.step i).1.events evs).1.terminated = none := hfinal
      have h1 : (p.step i).1.terminated = none := by
        cases hp : (p.step i).1.terminated with
        | none => rfl
        | some x =>
          rw [events_of_terminated evs _ x hp] at hfinal1
          cases hfinal1
      obtain ⟨h2, _, _, hrest⟩ := step_spec p i hterm
      obtain ⟨h3, _, _⟩ := hrest h1
      obtain ⟨k2, k3, k4, k5⟩ := ih (p.step i).1 hfinal1 (h2.trans hd)
        (step_not_returned p i hd hnone)
      refine ⟨k2, k3, k4.trans (step_threads_length p i), ?_⟩
      simp only [process.events, process.handle, pushed_tasks, List.append_assoc]
      refine (List.Perm.append_left _ k5).trans ?_
      rw [← List.append_assoc, ← List.append_assoc, ← List.append_assoc]
      rw [List.append_assoc (p.step i).2.toList]
      exact (List.Perm.append_right _ h3)

/-- The whole life of a pool with at least one thread: whenever no exception has left a
thread, no task is lost or duplicated, and when every thread has returned the queue is
empty and the tasks called are the tasks pushed, each once; and from every state reached
after the signal there is a schedule after which every thread has returned or an
exception has left a thread. -/
theorem lifetime_spec {σ ε : Type} (hardware_concurrency : Nat) (env : σ)
    (evs : List (event σ ε)) (sched : List Nat) (hthreads : 0 < hardware_concurrency) :
    ((lifetime hardware_concurrency env evs sched).1.terminated = none →
      ((lifetime hardware_concurrency env evs sched).2 ++
          (held (lifetime hardware_concurrency env evs sched).1.pool._threads ++
            (lifetime hardware_concurrency env evs sched).1.pool._q._q)).Perm
        (pushed_tasks evs) ∧
      ((lifetime hardware_concurrency env evs sched).1.pool.joined = true →
        (lifetime hardware_concurrency env evs sched).1.pool._q._q = [] ∧
        (lifetime hardware_concurrency env evs sched).2.Perm (pushed_tasks evs))) ∧
    ∃ more,
      (lifetime hardware_concurrency env evs (sched ++ more)).1.pool.joined = true ∨
        (lifetime hardware_concurrency env evs (sched ++ more)).1.terminated.isSome =
          true := by
  obtain ⟨hheld0, hnone0⟩ := replicate_popping (σ := σ) (ε := ε) hardware_concurrency
  have hzero : held ({ pool := task_system.create hardware_concurrency, env := env } :
      process σ ε).pool._threads ++
      ({ pool := task_system.create hardware_concurrency, env := env } :
        process σ ε).pool._q._q ++ pushed_tasks evs = pushed_tasks evs := by
    show held (List.replicate hardware_concurrency thread.popping) ++ [] ++
      pushed_tasks evs = pushed_tasks evs
    rw [hheld0]
    rfl
  cases hev : (({ pool := task_system.create hardware_concurrency, env := env } :
      process σ ε).events evs).1.terminated with
  | some e =>
    have hdead : ∀ s, (lifetime hardware_concurrency env evs s).1.terminated = some e := by
      intro s
      have hs := steps_of_terminated s
        ({ (({ pool := task_system.create hardware_concurrency, env := env } :
            process σ ε).events evs).1 with
          pool := (({ pool := task_system.create hardware_concurrency, env := env } :
            process σ ε).events evs).1.pool.signal_done } : process σ ε) e hev
      exact (congrArg (fun r => r.1.terminated) hs).trans hev
    constructor
    · intro h
      rw [hdead sched] at h
      cases h
    · exact ⟨[], Or.inr (by rw [hdead]; rfl)⟩
  | none =>
    obtain ⟨_, e3, e4, e5⟩ := events_spec evs
      ({ pool := task_system.create hardware_concurrency, env := env } : process σ ε)
      hev rfl hnone0
    have hlen : (({ pool := task_system.create hardware_concurrency, env := env } :
        process σ ε).events evs).1.pool._threads.length = hardware_concurrency :=
      e4.trans (by simp [task_system.create])
    have e6 := e5.trans (List.Perm.of_eq hzero)
    have hne : (({ pool := task_system.create hardware_concurrency, env := env } :
        process σ ε).events evs).1.pool._threads ≠ [] := by
      intro h
      rw [h] at hlen
      simp only [List.length_nil] at hlen
      omega
    obtain ⟨s1, s2⟩ := shutdown_spec
      (({ pool := task_system.create hardware_concurrency, env := env } :
        process σ ε).events evs).1 sched hne e3
    constructor
    · intro hfinal
      obtain ⟨hperm, hjoin⟩ := s1 hfinal
      constructor
      · simp only [lifetime, List.append_assoc]
        exact (List.Perm.append_left _ hperm).trans e6
      · intro hj
        obtain ⟨hq, hcalled⟩ := hjoin hj
        exact ⟨hq, (List.Perm.append_left _ hcalled).trans e6⟩
    · obtain ⟨more, hmore⟩ := s2
      exact ⟨more, hmore⟩


/-! ## Theorems: the life of a pool that serves `async` -/

/-- A call of `async` keeps the bookkeeping: one more stored call, its object at the next
index, its task outstanding. -/
theorem tasks_match_async {α ρ ε υ : Type} (f : callable α ρ ε υ)
    (args : List (argument α υ)) (fns : List (υ → Except ε ρ × υ)) (n0 : Nat)
    (pend : List Nat) (p : process (store ρ ε υ) ε) (h : tasks_match fns n0 pend p) :
    tasks_match (fns ++ [std_bind f args]) n0 (pend ++ [n0 + fns.length])
      (async f args p).2 ∧
    (async f args p).1 = n0 + fns.length := by
  obtain ⟨hterm, hperm, hnodup, hlen, hcells, hfut⟩ := h
  have hk : (async f args p).1 = n0 + fns.length := hlen
  have hlt : ∀ k ∈ pend, k < p.env.heap.length := by
    intro k hkp
    obtain ⟨fn, hfn⟩ := hcells k hkp
    exact (List.getElem?_eq_some.mp hfn).1
  have hheap : (async f args p).2.env.heap =
      p.env.heap ++ [⟨std_bind f args, .pending, true⟩] := rfl
  have hnew : (async f args p).2.env.heap[n0 + fns.length]? =
      some ⟨std_bind f args, .pending, true⟩ := by
    rw [hheap, ← hlen]
    exact List.getElem?_concat_length _ _
  have hold : ∀ k, k < p.env.heap.length →
      (async f args p).2.env.heap[k]? = p.env.heap[k]? := by
    intro k hkl
    rw [hheap]
    exact List.getElem?_append_left hkl
  refine ⟨⟨hterm, ?_, ?_, ?_, ?_, ?_⟩, hk⟩
  · show (held p.pool._threads ++ (p.pool._q._q ++ [async_task p.env.heap.length])).Perm _
    rw [List.map_append, ← List.append_assoc, hlen]
    exact List.Perm.append_right _ hperm
  · rw [List.nodup_append]
    refine ⟨hnodup, List.nodup_singleton _, ?_⟩
    intro k hkp hk1
    rw [List.mem_singleton] at hk1
    have := hlt k hkp
    omega
  · rw [hheap]
    simp only [List.length_append, List.length_singleton]
    omega
  · intro k hkp
    rw [List.mem_append, List.mem_singleton] at hkp
    rcases hkp with hkp | rfl
    · obtain ⟨fn, hfn⟩ := hcells k hkp
      exact ⟨fn, (hold k (hlt k hkp)).trans hfn⟩
    · exact ⟨_, hnew⟩
  · intro j fn hj
    by_cases hjl : j < fns.length
    · rw [List.getElem?_append_left hjl] at hj
      have hlt2 : n0 + j < p.env.heap.length := by omega
      rcases hfut j fn hj with ⟨hm, hc⟩ | ⟨u, hc⟩
      · exact Or.inl ⟨List.mem_append_left _ hm, (hold _ hlt2).trans hc⟩
      · exact Or.inr ⟨u, (hold _ hlt2).trans hc⟩
    · by_cases hje : j = fns.length
      · subst hje
        rw [List.getElem?_concat_length] at hj
        cases hj
        exact Or.inl ⟨List.mem_append_right _ (List.mem_singleton.mpr rfl), hnew⟩
      · have : (fns ++ [std_bind f args])[j]? = none := by
          apply List.getElem?_eq_none
          simp only [List.length_append, List.length_singleton]
          omega
        rw [this] at hj
        cases hj

/-- A step of a thread keeps the bookkeeping: when the step is a call, it is the call of
the lambda of an outstanding object, it returns, and the object has its outcome. -/
theorem tasks_match_step {ρ ε υ : Type} (fns : List (υ → Except ε ρ × υ)) (n0 : Nat)
    (pend : List Nat) (p : process (store ρ ε υ) ε) (i : Nat)
    (h : tasks_match fns n0 pend p) :
    ∃ pend1, tasks_match fns n0 pend1 (p.step i).1 := by
  obtain ⟨hterm, hperm, hnodup, hlen, hcells, hfut⟩ := h
  obtain ⟨_, hnocall, hcall, hrest⟩ := step_spec p i hterm
  cases hc : (p.step i).2 with
  | none =>
    obtain ⟨henv, hterm1⟩ := hnocall hc
    obtain ⟨hperm1, _, _⟩ := hrest hterm1
    rw [hc] at hperm1
    refine ⟨pend, hterm1, hperm1.trans hperm, hnodup, ?_, ?_, ?_⟩
    · rw [henv]; exact hlen
    · rw [henv]; exact hcells
    · rw [henv]; exact hfut
  | some f =>
    obtain ⟨hheld, hres⟩ := hcall f hc
    have hmem : f ∈ pend.map async_task :=
      hperm.subset (List.mem_append_left _ hheld)
    obtain ⟨k, hkp, hkf⟩ := List.mem_map.mp hmem
    obtain ⟨fnk, hcellk⟩ := hcells k hkp
    have hklt : k < p.env.heap.length := (List.getElem?_eq_some.mp hcellk).1
    have hok := call_async_task k p.env fnk hcellk
    rw [hkf] at hok
    rcases hres with ⟨hcallok, hterm1⟩ | ⟨e, hcallerr, _⟩
    · rw [hok] at hcallok
      have henv : (p.step i).1.env =
          { user := (fnk p.env.user).2,
            heap := p.env.heap.set k ⟨fnk, state_of (fnk p.env.user).1, false⟩ } :=
        (Except.ok.inj hcallok).symm
      obtain ⟨hperm1, _, _⟩ := hrest hterm1
      rw [hc] at hperm1
      have hperm2 : (f :: (held (p.step i).1.pool._threads ++
          (p.step i).1.pool._q._q)).Perm (f :: (pend.erase k).map async_task) := by
        refine (hperm1.trans hperm).trans ?_
        have hmap : (pend.map (async_task : Nat → std_function (store ρ ε υ) ε)).Perm
            ((k :: pend.erase k).map async_task) :=
          (List.perm_cons_erase hkp).map async_task
        rw [List.map_cons, hkf] at hmap
        exact hmap
      have hne : ∀ k1 ∈ pend.erase k, k1 ≠ k := by
        intro k1 hk1 heq
        rw [heq] at hk1
        exact (List.Nodup.not_mem_erase hnodup) hk1
      refine ⟨pend.erase k, hterm1, hperm2.cons_inv, hnodup.erase k, ?_, ?_, ?_⟩
      · rw [henv]
        simp only [List.length_set]
        exact hlen
      · intro k1 hk1
        obtain ⟨fn, hfn⟩ := hcells k1 (List.mem_of_mem_erase hk1)
        refine ⟨fn, ?_⟩
        rw [henv]
        show (p.env.heap.set k _)[k1]? = _
        rw [List.getElem?_set_ne (hne k1 hk1).symm]
        exact hfn
      · intro j fn hj
        rw [henv]
        show (n0 + j ∈ pend.erase k ∧ (p.env.heap.set k _)[n0 + j]? = _) ∨
          ∃ u, (p.env.heap.set k _)[n0 + j]? = _
        by_cases hjk : n0 + j = k
        · right
          rcases hfut j fn hj with ⟨_, hcj⟩ | ⟨u, hcj⟩
          · rw [hjk, hcellk] at hcj
            have hfn : fnk = fn := by
              have := Option.some.inj hcj
              exact congrArg packaged_task.fn this
            subst hfn
            exact ⟨p.env.user, by rw [hjk]; exact List.getElem?_set_self hklt⟩
          · rw [hjk, hcellk] at hcj
            have := congrArg packaged_task.alive (Option.some.inj hcj)
            cases this
        · have hset : (p.env.heap.set k
              ⟨fnk, state_of (fnk p.env.user).1, false⟩)[n0 + j]? = p.env.heap[n0 + j]? :=
            List.getElem?_set_ne (fun h => hjk h.symm)
          rcases hfut j fn hj with ⟨hm, hcj⟩ | ⟨u, hcj⟩
          · exact Or.inl ⟨(List.mem_erase_of_ne hjk).mpr hm, hset.trans hcj⟩
          · exact Or.inr ⟨u, hset.trans hcj⟩
    · rw [hok] at hcallerr
      cases hcallerr

/-- Along every schedule the bookkeeping is kept. -/
theorem tasks_match_steps {ρ ε υ : Type} (fns : List (υ → Except ε ρ × υ)) (n0 : Nat)
    (sched : List Nat) :
    ∀ (pend : List Nat) (p : process (store ρ ε υ) ε), tasks_match fns n0 pend p →
      ∃ pend1, tasks_match fns n0 pend1 (p.steps sched).1 := by
  induction sched with
  | nil => intro pend p h; exact ⟨pend, h⟩
  | cons i sched ih =>
    intro pend p h
    obtain ⟨pend1, h1⟩ := tasks_match_step fns n0 pend p i h
    exact ih pend1 (p.step i).1 h1

/-- Before the destructor runs: along every sequence of requests, from a state that is
not done and in which no thread has returned, the bookkeeping is kept with the stored
calls of the requests added, the queue stays not done, no thread returns, the number of
threads stays, and the futures returned are the next heap indices. -/
theorem serve_all_spec {α ρ ε υ : Type} (n0 : Nat) (reqs : List (request α ρ ε υ)) :
    ∀ (fns : List (υ → Except ε ρ × υ)) (pend : List Nat) (p : process (store ρ ε υ) ε),
      tasks_match fns n0 pend p → p.pool._q._done = false →
      thread.returned ∉ p.pool._threads →
      (∃ pend1, tasks_match (fns ++ stored_calls reqs) n0 pend1 (serve_all p reqs).1) ∧
      (serve_all p reqs).1.pool._q._done = false ∧
      thread.returned ∉ (serve_all p reqs).1.pool._threads ∧
      (serve_all p reqs).1.pool._threads.length = p.pool._threads.length ∧
      (serve_all p reqs).2 = List.range' (n0 + fns.length) (stored_calls reqs).length := by
  induction reqs with
  | nil =>
    intro fns pend p h hd hnone
    exact ⟨⟨pend, by simpa [stored_calls] using h⟩, hd, hnone, rfl, rfl⟩
  | cons r reqs ih =>
    intro fns pend p h hd hnone
    cases r with
    | async f args =>
      obtain ⟨h1, hfut⟩ := tasks_match_async f args fns n0 pend p h
      obtain ⟨⟨pend1, k1⟩, k2, k3, k4, k5⟩ :=
        ih (fns ++ [std_bind f args]) (pend ++ [n0 + fns.length]) (async f args p).2
          h1 hd hnone
      refine ⟨⟨pend1, ?_⟩, k2, k3, k4, ?_⟩
      · have hl : fns ++ stored_calls (request.async f args :: reqs) =
            fns ++ [std_bind f args] ++ stored_calls reqs := by
          simp [stored_calls]
        rw [hl]
        exact k1
      · show (some (async f args p).1).toList ++ (serve_all (async f args p).2 reqs).2 = _
        rw [k5, hfut]
        simp only [Option.toList, List.singleton_append, stored_calls, List.length_cons,
          List.length_append, List.length_nil, List.range'_succ, Nat.add_assoc,
          Nat.zero_add]
    | thread i =>
      obtain ⟨pend0, h1⟩ := tasks_match_step fns n0 pend p i h
      have hdone1 : (p.step i).1.pool._q._done = false :=
        ((step_spec p i h.1).1).trans hd
      obtain ⟨k1, k2, k3, k4, k5⟩ := ih fns pend0 (p.step i).1 h1 hdone1
        (step_not_returned p i hd hnone)
      exact ⟨k1, k2, k3, k4.trans (step_threads_length p i), k5⟩

/-- The whole life of a pool with at least one thread in a program whose tasks are all
made by `async`: along every sequence of calls of `async` and steps of the threads before
the signal and every schedule after it, no exception leaves a thread; the futures
returned are the heap indices from the size of the heap at the start on; when every
thread has returned, the queue is empty and every future is ready with the outcome of
its stored call; and from every state reached after the signal there is a schedule after
which every thread has returned. -/
theorem async_lifetime_spec {α ρ ε υ : Type} (hardware_concurrency : Nat)
    (st : store ρ ε υ) (reqs : List (request α ρ ε υ)) (sched : List Nat)
    (hthreads : 0 < hardware_concurrency) :
    (async_lifetime hardware_concurrency st reqs sched).1.terminated = none ∧
    (async_lifetime hardware_concurrency st reqs sched).2 =
      List.range' st.heap.length (stored_calls reqs).length ∧
    ((async_lifetime hardware_concurrency st reqs sched).1.pool.joined = true →
      (async_lifetime hardware_concurrency st reqs sched).1.pool._q._q = [] ∧
      ∀ j fn, (stored_calls reqs)[j]? = some fn →
        ∃ u, future_get (async_lifetime hardware_concurrency st reqs sched).1.env
          (st.heap.length + j) = get_of (fn u).1) ∧
    ∃ more,
      (async_lifetime hardware_concurrency st reqs (sched ++ more)).1.pool.joined = true := by
  obtain ⟨hheld0, hnone0⟩ :=
    replicate_popping (σ := store ρ ε υ) (ε := ε) hardware_concurrency
  have hinit : tasks_match ([] : List (υ → Except ε ρ × υ)) st.heap.length []
      ({ pool := task_system.create hardware_concurrency, env := st } :
        process (store ρ ε υ) ε) := by
    refine ⟨rfl, ?_, List.nodup_nil, rfl, ?_, ?_⟩
    · show (held (List.replicate hardware_concurrency thread.popping) ++ []).Perm []
      rw [hheld0]
      exact List.Perm.refl _
    · intro k hk
      cases hk
    · intro j fn hj
      cases hj
  obtain ⟨⟨pend1, m1⟩, m2, m3, m4, m5⟩ := serve_all_spec st.heap.length reqs [] []
    ({ pool := task_system.create hardware_concurrency, env := st } :
      process (store ρ ε υ) ε) hinit rfl hnone0
  rw [List.nil_append] at m1
  have hlen : (serve_all ({ pool := task_system.create hardware_concurrency, env := st } :
      process (store ρ ε υ) ε) reqs).1.pool._threads.length = hardware_concurrency :=
    m4.trans (by simp [task_system.create])
  have hne : (serve_all ({ pool := task_system.create hardware_concurrency, env := st } :
      process (store ρ ε υ) ε) reqs).1.pool._threads ≠ [] := by
    intro h
    rw [h] at hlen
    simp at hlen
    omega
  have hsig : tasks_match (stored_calls reqs) st.heap.length pend1
      ({ (serve_all ({ pool := task_system.create hardware_concurrency, env := st } :
          process (store ρ ε υ) ε) reqs).1 with
        pool := (serve_all ({ pool := task_system.create hardware_concurrency, env := st } :
          process (store ρ ε υ) ε) reqs).1.pool.signal_done } :
        process (store ρ ε υ) ε) := m1
  have halive : ∀ s, (async_lifetime hardware_concurrency st reqs s).1.terminated = none :=
    fun s => (tasks_match_steps _ _ s pend1 _ hsig).choose_spec.1
  obtain ⟨s1, s2⟩ := shutdown_spec
    (serve_all ({ pool := task_system.create hardware_concurrency, env := st } :
      process (store ρ ε υ) ε) reqs).1 sched hne m3
  refine ⟨halive sched, m5, ?_, ?_⟩
  · intro hj
    obtain ⟨pend2, _, hperm, _, _, _, hfut⟩ := tasks_match_steps _ _ sched pend1 _ hsig
    have hq := ((s1 (halive sched)).2 hj).1
    have hheld : held (async_lifetime hardware_concurrency st reqs sched).1.pool._threads =
        [] := (joined_spec _ hj).1
    have hq2 : (async_lifetime hardware_concurrency st reqs sched).1.pool._q._q = [] := hq
    have hpend : pend2 = [] := by
      have hp : ([] : List (std_function (store ρ ε υ) ε)).Perm
          (pend2.map async_task) := by
        have h0 : (held (async_lifetime hardware_concurrency st reqs sched).1.pool._threads ++
            (async_lifetime hardware_concurrency st reqs sched).1.pool._q._q).Perm
            (pend2.map async_task) := hperm
        rw [hq2, hheld] at h0
        exact h0
      have := hp.length_eq
      simp only [List.length_nil, List.length_map] at this
      exact List.length_eq_zero.mp this.symm
    refine ⟨hq2, ?_⟩
    intro j fn hjf
    rcases hfut j fn hjf with ⟨hm, _⟩ | ⟨u, hc⟩
    · rw [hpend] at hm
      cases hm
    · refine ⟨u, ?_⟩
      have hc2 : (async_lifetime hardware_concurrency st reqs sched).1.env.heap[
          st.heap.length + j]? = some ⟨fn, state_of (fn u).1, false⟩ := hc
      unfold future_get
      rw [hc2]
      cases (fn u).1 <;> rfl
  · obtain ⟨more, hmore⟩ := s2
    refine ⟨more, ?_⟩
    rcases hmore with hj | hterm
    · exact hj
    · have hal : (async_lifetime hardware_concurrency st reqs
          (sched ++ more)).1.terminated.isSome = true := hterm
      rw [halive (sched ++ more)] at hal
      cases hal

/-- C7 (amended): over the whole life of a pool with at least one thread, whatever pushes
and steps of the threads precede the `_q.done()` of the destructor and along every
schedule of the threads after it (no push racing the destruction).  For tasks of any
kind: as long as no exception has left a thread, no task is lost or duplicated, and when
the joins are through (every thread has returned from `run`) the queue is empty and the
tasks called are exactly the tasks pushed, each once, so every task that was queued and
not yet popped at the signal has been called; and from every state so reached the threads
can go on until the joins are through or an exception leaves a thread.  For the tasks
made by `async`, which are the tasks with a result handle: no exception ever leaves a
thread; the handles are the objects allocated, one per call of `async`; when the joins
are through the queue is empty and every handle is ready, `get()` giving the outcome of
its stored call and not blocking; and from every state so reached the joins can
complete.  Nothing queued at the signal is dropped. -/
theorem shutdown_drains_queue {σ α ρ ε υ : Type} (hardware_concurrency : Nat) (env : σ)
    (evs : List (event σ ε)) (st : store ρ ε υ) (reqs : List (request α ρ ε υ))
    (sched : List Nat) (hthreads : 0 < hardware_concurrency) :
    ((lifetime hardware_concurrency env evs sched).1.terminated = none →
      ((lifetime hardware_concurrency env evs sched).2 ++
          (held (lifetime hardware_concurrency env evs sched).1.pool._threads ++
            (lifetime hardware_concurrency env evs sched).1.pool._q._q)).Perm
        (pushed_tasks evs) ∧
      ((lifetime hardware_concurrency env evs sched).1.pool.joined = true →
        (lifetime hardware_concurrency env evs sched).1.pool._q._q = [] ∧
        (lifetime hardware_concurrency env evs sched).2.Perm (pushed_tasks evs))) ∧
    (∃ more,
      (lifetime hardware_concurrency env evs (sched ++ more)).1.pool.joined = true ∨
        (lifetime hardware_concurrency env evs (sched ++ more)).1.terminated.isSome =
          true) ∧
    (async_lifetime hardware_concurrency st reqs sched).1.terminated = none ∧
    (async_lifetime hardware_concurrency st reqs sched).2 =
      List.range' st.heap.length (stored_calls reqs).length ∧
    ((async_lifetime hardware_concurrency st reqs sched).1.pool.joined = true →
      (async_lifetime hardware_concurrency st reqs sched).1.pool._q._q = [] ∧
      ∀ j fn, (stored_calls reqs)[j]? = some fn →
        ∃ u, future_get (async_lifetime hardware_concurrency st reqs sched).1.env
          (st.heap.length + j) = get_of (fn u).1) ∧
    ∃ more,
      (async_lifetime hardware_concurrency st reqs (sched ++ more)).1.pool.joined = true := by
  obtain ⟨g1, g2⟩ := lifetime_spec hardware_concurrency env evs sched hthreads
  exact ⟨g1, g2, async_lifetime_spec hardware_concurrency st reqs sched hthreads⟩

/-- Witness of C7 (amended): a pool of two threads; at the signal one task is held by
thread 0 and two are queued; after it thread 1 pops and calls the second task, thread 0
calls the first and then pops and calls the third, and both threads return.  With three
logging tasks the three are called; with three tasks made by `async` the queue is empty
and the three handles are ready. -/
theorem shutdown_drains_queue_witness :
    ((lifetime 2 [] c7_events [1, 1, 0, 0, 0, 1, 0]).1.pool._q._q = [] ∧
      (lifetime 2 [] c7_events [1, 1, 0, 0, 0, 1, 0]).2.Perm
        [log_task 1, log_task 2, log_task 3]) ∧
    ((async_lifetime 2 fresh_process.env c7_requests [1, 1, 0, 0, 0, 1, 0]).1.pool._q._q =
        [] ∧
      ∀ j fn, (stored_calls c7_requests)[j]? = some fn →
        ∃ u, future_get
          (async_lifetime 2 fresh_process.env c7_requests [1, 1, 0, 0, 0, 1, 0]).1.env
          (fresh_process.env.heap.length + j) = get_of (fn u).1) :=
  ⟨((shutdown_drains_queue 2 ([] : List Nat) c7_events fresh_process.env c7_requests
      [1, 1, 0, 0, 0, 1, 0] (by decide)).1 (by decide)).2 (by decide),
    (shutdown_drains_queue 2 ([] : List Nat) c7_events fresh_process.env c7_requests
      [1, 1, 0, 0, 0, 1, 0] (by decide)).2.2.2.2.1 (by decide)⟩

/-- C7 as stated fails: a pool of one thread on which a task is pushed and not yet popped
(one task is in the queue, the log is empty) when the destructor signals done: the
thread pops the task, calls it (the log gets its entry), finds the queue empty and
returns; the task was not dropped.  The same with a task made by `async`: before the
signal it is queued and `get()` on its handle blocks; when the thread has returned the
queue is empty and `get()` returns the value of the stored call. -/
theorem queued_task_runs_after_done :
    (({ pool := task_system.create 1, env := [] } : process (List Nat) Nat).events
      [.push (log_task 1)]).1.pool._q._q.length = 1 ∧
    (({ pool := task_system.create 1, env := [] } : process (List Nat) Nat).events
      [.push (log_task 1)]).1.env = [] ∧
    (lifetime 1 [] [.push (log_task 1)] [0, 0, 0]).1.env = [1] ∧
    (lifetime 1 [] [.push (log_task 1)] [0, 0, 0]).2.length = 1 ∧
    (lifetime 1 [] [.push (log_task 1)] [0, 0, 0]).1.pool.joined = true ∧
    (lifetime 1 [] [.push (log_task 1)] [0, 0, 0]).1.pool._q._q.length = 0 ∧
    (run 2 ((({} : notification_queue (std_function (List Nat) Nat)).push
      (log_task 1)).done) []).env = [1] ∧
    (serve_all fresh_process [.async times_ten [.plain .rvalue 5]]).1.pool._q._q.length =
      1 ∧
    (serve_all fresh_process [.async times_ten [.plain .rvalue 5]]).2 = [0] ∧
    future_get (serve_all fresh_process [.async times_ten [.plain .rvalue 5]]).1.env 0 =
      .blocks ∧
    (async_lifetime 1 fresh_process.env [.async times_ten [.plain .rvalue 5]]
      [0, 0, 0]).1.pool.joined = true ∧
    (async_lifetime 1 fresh_process.env [.async times_ten [.plain .rvalue 5]]
      [0, 0, 0]).1.pool._q._q.length = 0 ∧
    future_get (async_lifetime 1 fresh_process.env [.async times_ten [.plain .rvalue 5]]
      [0, 0, 0]).1.env 0 = .returns 50 := by
  refine ⟨by decide, by decide, by decide, by decide, by decide, by decide, by decide,
    by decide, by decide, by decide, by decide, by decide, by decide⟩

/-! ## Theorems: further properties of the pool -/

/-- On a queue that is not done, a thread alone with the queue calls the queued tasks in
order and then sleeps in `pop` on the empty queue: `run` does not return. -/
theorem run_parks_after_drain {σ ε : Type} (ts : List (std_function σ ε)) (env env1 : σ)
    (fuel : Nat) (hret : call_all ts env = .ok env1) (hfuel : ts.length < fuel) :
    run fuel { _q := ts, _done := false } env =
      ⟨.blocked, { _q := [], _done := false }, env1, ts⟩ := by
  induction ts generalizing env fuel with
  | nil =>
    obtain ⟨k, rfl⟩ : ∃ k, fuel = k + 1 := ⟨fuel - 1, by simp at hfuel; omega⟩
    simp only [call_all, Except.ok.injEq] at hret
    subst hret
    rfl
  | cons t ts ih =>
    obtain ⟨k, rfl⟩ : ∃ k, fuel = k + 1 := ⟨fuel - 1, by simp at hfuel; omega⟩
    rw [run_cons]
    simp only [call_all] at hret
    cases hc : std_function.call t env with
    | error e => rw [hc] at hret; cases hret
    | ok env2 =>
      rw [hc] at hret
      simp only
      rw [ih env2 k hret (by simpa using hfuel)]

/-- Witness of `run_parks_after_drain`: two logging tasks. -/
theorem run_parks_after_drain_witness :
    run 3 { _q := [log_task 1, log_task 2], _done := false } [] =
      ⟨.blocked, { _q := [], _done := false }, [1, 2], [log_task 1, log_task 2]⟩ :=
  run_parks_after_drain [log_task 1, log_task 2] [] [1, 2] 3 rfl (by decide)

/-- In a joined pool no thread takes a step any more. -/
theorem step_of_joined {σ ε : Type} (p : process σ ε) (i : Nat)
    (hj : p.pool.joined = true) : p.step i = (p, none) := by
  simp only [task_system.joined, List.all_eq_true] at hj
  simp only [process.step]
  split
  · rfl
  · cases hi : p.pool._threads[i]? with
    | none => rfl
    | some w =>
      have hw := hj w (List.getElem?_mem hi)
      cases w with
      | returned => rfl
      | popping => simp at hw
      | waiting => simp at hw
      | calling f => simp at hw

/-- A push after the joins is accepted and never served: once every thread has returned
from `run`, a task pushed on the pool stays at the tail of the queue along every schedule
and is never called. -/
theorem late_push_is_never_called {σ ε : Type} (p : process σ ε) (f : std_function σ ε)
    (sched : List Nat) (hj : p.pool.joined = true) :
    ({ p with pool := p.pool.push f } : process σ ε).steps sched =
      ({ p with pool := p.pool.push f }, []) ∧
    (p.pool.push f)._q._q = p.pool._q._q ++ [f] := by
  refine ⟨?_, rfl⟩
  induction sched with
  | nil => rfl
  | cons i sched ih =>
    have hstep := step_of_joined ({ p with pool := p.pool.push f } : process σ ε) i hj
    simp only [process.steps, hstep, ih, Option.toList, List.append_nil]

/-- Witness of `late_push_is_never_called`: the pool of one thread after its life. -/
theorem late_push_is_never_called_witness :
    (({ (lifetime 1 [] [.push (log_task 1)] [0, 0, 0]).1 with
        pool := (lifetime 1 [] [.push (log_task 1)] [0, 0, 0]).1.pool.push (log_task 2) } :
        process (List Nat) Nat).steps [0, 0, 0, 0]).2 = [] :=
  congrArg Prod.snd (late_push_is_never_called
    (lifetime 1 [] [.push (log_task 1)] [0, 0, 0]).1 (log_task 2) [0, 0, 0, 0]
    (by decide)).1

/-- The bound on what is left to do is at most three per queued task and two per
thread. -/
theorem weight_sum_le {σ ε : Type} (l : List (thread σ ε)) :
    (l.map thread.weight).sum ≤ 2 * l.length := by
  induction l with
  | nil => simp
  | cons w l ih =>
    cases w <;> simp only [List.map_cons, List.sum_cons, List.length_cons, thread.weight] <;>
      omega

/-- Teardown makes progress: once the queue is done, in a program that has not
terminated and whose tasks all return, every step of a thread that has not returned
lowers a bound that starts at no more than three per queued task plus two per thread; so
the threads return within that many steps and the joins do not hang. -/
theorem shutdown_step_progress {σ ε : Type} (p : process σ ε) (i : Nat) (w : thread σ ε)
    (hterm : p.terminated = none) (hdone : p.pool._q._done = true)
    (hok : ∀ t ∈ held p.pool._threads ++ p.pool._q._q, always_returns t)
    (hi : p.pool._threads[i]? = some w) (hw : w ≠ thread.returned) :
    (p.step i).1.remaining < p.remaining ∧
    p.remaining ≤ 3 * p.pool._q._q.length + 2 * p.pool._threads.length ∧
    (p.step i).1.terminated = none ∧ (p.step i).1.pool._q._done = true := by
  obtain ⟨h1, hnocall, hcall, hrest⟩ := step_spec p i hterm
  have halive : (p.step i).1.terminated = none := by
    cases hc : (p.step i).2 with
    | none => exact (hnocall hc).2
    | some f =>
      obtain ⟨hheld, hres⟩ := hcall f hc
      rcases hres with ⟨_, h⟩ | ⟨e, herr, _⟩
      · exact h
      · obtain ⟨env1, hret⟩ := hok f (List.mem_append_left _ hheld) p.env
        rw [hret] at herr
        cases herr
  refine ⟨(hrest halive).2.2 hdone ⟨w, hi, hw⟩, ?_, halive, h1.trans hdone⟩
  have := weight_sum_le p.pool._threads
  simp only [process.remaining]
  omega

/-- Witness of `shutdown_step_progress`: the first step of thread 0 after the signal on a
pool of one thread with one queued task. -/
theorem shutdown_step_progress_witness :
    (({ pool := ((task_system.create 1).push (log_task 1)).signal_done, env := [] } :
        process (List Nat) Nat).step 0).1.remaining <
      ({ pool := ((task_system.create 1).push (log_task 1)).signal_done, env := [] } :
        process (List Nat) Nat).remaining :=
  (shutdown_step_progress
    ({ pool := ((task_system.create 1).push (log_task 1)).signal_done, env := [] } :
      process (List Nat) Nat) 0 .popping rfl rfl
    (by
      intro t ht
      simp only [task_system.create, task_system.push, task_system.signal_done,
        notification_queue.push, notification_queue.done, List.replicate, held,
        List.nil_append, List.mem_singleton] at ht
      subst ht
      exact fun env => ⟨_, rfl⟩)
    rfl (by simp)).1

/-- The two accounts of `task_system::run` agree: on a done queue whose tasks return, the
steps of the one thread of a pool of one, taken one after the other, call the same tasks
in the same order and leave the same queue and state as the loop `run`, and the thread
has returned. -/
theorem single_thread_steps_agree_with_run {σ ε : Type} (ts : List (std_function σ ε))
    (env env1 : σ) (cnt : Nat) (hret : call_all ts env = .ok env1) :
    (({ pool := { _count := cnt, _threads := [.popping], _q := { _q := ts, _done := true } },
        env := env } : process σ ε).steps (List.replicate (2 * ts.length + 1) 0) =
      ({ pool := { _count := cnt, _threads := [.returned],
                   _q := { _q := [], _done := true } },
         env := env1 }, ts)) ∧
    run (ts.length + 1) { _q := ts, _done := true } env =
      ⟨.returned, { _q := [], _done := true }, env1, ts⟩ := by
  refine ⟨?_, run_done_of_call_all ts env env1 _ hret (Nat.lt_succ_self _)⟩
  induction ts generalizing env with
  | nil =>
    simp only [call_all, Except.ok.injEq] at hret
    subst hret
    rfl
  | cons t ts ih =>
    simp only [call_all] at hret
    cases hc : std_function.call t env with
    | error e => rw [hc] at hret; cases hret
    | ok env2 =>
      rw [hc] at hret
      have hlen : 2 * (t :: ts).length + 1 = (2 * ts.length + 1) + 1 + 1 := by
        simp only [List.length_cons]
        omega
      have hs1 : process.step
          (⟨⟨cnt, [.popping], ⟨t :: ts, true⟩⟩, env, none⟩ : process σ ε) 0 =
          (⟨⟨cnt, [.calling t], ⟨ts, true⟩⟩, env, none⟩, none) := rfl
      have hs2 : process.step
          (⟨⟨cnt, [.calling t], ⟨ts, true⟩⟩, env, none⟩ : process σ ε) 0 =
          (⟨⟨cnt, [.popping], ⟨ts, true⟩⟩, env2, none⟩, some t) := by
        simp only [process.step, Option.isSome_none, Bool.false_eq_true, if_false,
          List.getElem?_cons_zero, hc]
        rfl
      have hcons : ∀ (p : process σ ε) (i : Nat) (is : List Nat), p.steps (i :: is) =
          (((p.step i).1.steps is).1, (p.step i).2.toList ++ ((p.step i).1.steps is).2) :=
        fun _ _ _ => rfl
      rw [hlen, List.replicate_succ, List.replicate_succ, hcons, hs1]
      dsimp only
      rw [hcons, hs2]
      dsimp only
      rw [ih env2 hret]
      rfl

/-- Witness of `single_thread_steps_agree_with_run`: two logging tasks. -/
theorem single_thread_steps_agree_with_run_witness :
    (({ pool := { _count := 1, _threads := [.popping],
                  _q := { _q := [log_task 1, log_task 2], _done := true } },
        env := [] } : process (List Nat) Nat).steps (List.replicate 5 0)).1.env = [1, 2] :=
  congrArg (fun r => r.1.env)
    (single_thread_steps_agree_with_run [log_task 1, log_task 2] [] [1, 2] 1 rfl).1

end sparent_naive
